/-
Verification of the tubi-m3u scraper (src/python/scrape-tubi.py) against its
natural-language specification.  The relevant parts of the program are
shallowly embedded as executable Lean definitions; the network is modelled by
passing each outbound request's result in as a parameter.
-/
import Mathlib

namespace Tubi

/-! ## Resilient fetch controller (main, lines 180-236)

One country's proxy loop.  Each iteration of `for proxy in proxies` first
checks `retries >= MAX_RETRIES` and breaks; otherwise it calls
`fetch_channel_list(proxy)` (one fetch attempt).  A falsy result increments
`retries`.  A truthy payload with an empty extracted channel list hits
`continue` WITHOUT touching `retries`; a nonempty channel list with an empty
schedule result increments `retries` and continues; otherwise the two output
files are written and the loop breaks. -/

/-- What one proxy attempt comes to, as observed by the loop in `main`:
`fetch_channel_list` returns a falsy value (`fetchFail`); or a decoded payload
whose `extract_channel_list` is empty (`emptyChannels`); or nonempty channels
but `fetch_epg_data` returns an empty accumulation (`emptySchedule`); or a
payload with nonempty channels and nonempty schedule (`success`). -/
inductive AttemptOutcome where
  | fetchFail
  | emptyChannels
  | emptySchedule
  | success
deriving DecidableEq, Repr

/-- `MAX_RETRIES` (line 30). -/
def MAX_RETRIES : Nat := 10

/-- The per-country proxy loop of `main` (lines 187-236), driven by the list
of per-proxy outcomes.  Returns the number of fetch attempts made (calls to
`fetch_channel_list`) and whether output files were written for the country. -/
def country_loop : List AttemptOutcome → Nat → Nat × Bool
  | [], _ => (0, false)
  | o :: rest, retries =>
    if MAX_RETRIES ≤ retries then (0, false)
    else
      match o with
      | .fetchFail =>
        let r := country_loop rest (retries + 1)
        (r.1 + 1, r.2)
      | .emptyChannels =>
        -- `if not channel_list: ... continue`  (lines 203-205, no retries += 1)
        let r := country_loop rest retries
        (r.1 + 1, r.2)
      | .emptySchedule =>
        -- `if not epg_data: ... retries += 1; continue`  (lines 210-213)
        let r := country_loop rest (retries + 1)
        (r.1 + 1, r.2)
      | .success => (1, true)

/-- The outer loop of `main` over the configured countries: each country's
run is independent of the others (no state crosses iterations). -/
def main_run (runs : List (List AttemptOutcome)) : List (Nat × Bool) :=
  runs.map (fun os => country_loop os 0)

/-! ## Egress resolver (`get_proxies`, lines 33-48)

`requests.get(url, verify=False)` is NOT wrapped in try/except: a transport
error raises out of `get_proxies` (and out of `main`).  Only the non-200
status case is handled, by returning `[]`.  The response is modelled as
either a transport error or a status code plus body text. -/

inductive TransportError where
  | connectionError
  | sslError
  | timeout
deriving DecidableEq, Repr

structure HttpResponse where
  status_code : Nat
  text : String
deriving DecidableEq, Repr

/-- Python `str.splitlines` restricted to the `\n`, `\r\n`, `\r` line
boundaries (the ones that occur in the proxy directory's plain-text reply);
no trailing empty line for a trailing terminator. -/
def splitlinesAux : List Char → List Char → List String
  | cur, [] => if cur.isEmpty then [] else [String.mk cur.reverse]
  | cur, '\r' :: '\n' :: rest => String.mk cur.reverse :: splitlinesAux [] rest
  | cur, '\r' :: rest => String.mk cur.reverse :: splitlinesAux [] rest
  | cur, '\n' :: rest => String.mk cur.reverse :: splitlinesAux [] rest
  | cur, c :: rest => splitlinesAux (c :: cur) rest

def splitlines (s : String) : List String :=
  splitlinesAux [] s.data

/-- `get_proxies` (lines 33-48) applied to the proxy directory's reply.
A transport error propagates (no try/except around `requests.get`); a 200
reply is split into lines, each formatted as `socks4://ip:port`; any other
status yields `[]`. -/
def get_proxies (response : Except TransportError HttpResponse) :
    Except TransportError (List String) :=
  match response with
  | .error e => .error e
  | .ok r =>
    if r.status_code = 200 then
      .ok ((splitlines r.text).map (fun proxy => "socks4://" ++ proxy))
    else
      .ok []

/-! ## Schedule batch fetcher (`fetch_epg_data`, lines 131-154) -/

/-- One batch request's result: a JSON reply whose `rows` field is `rows`
(`ok`), a non-200 status, malformed JSON, or a transport error. -/
inductive BatchResult (ρ : Type) where
  | ok (rows : List ρ)
  | badStatus (code : Nat)
  | badJson
  | transportError
deriving DecidableEq, Repr

/-- `grouped_ids = [channel_list[i:i + group_size] for i in range(0, len(channel_list), group_size)]`
with `group_size = 150` (lines 133-134). -/
def grouped_ids : List String → List (List String)
  | [] => []
  | c :: cs => (c :: cs).take 150 :: grouped_ids ((c :: cs).drop 150)
termination_by l => l.length
decreasing_by simp [List.length_drop]; omega

/-- `fetch_epg_data` (lines 131-154): one request per batch, in order;
on success the reply's rows extend the accumulator; any per-batch failure is
logged and skipped (`continue` / fall-through), other batches still proceed.
`respond` models the schedule endpoint's reply for a given batch. -/
def fetch_epg_data {ρ : Type} (respond : List String → BatchResult ρ)
    (channel_list : List String) : List ρ :=
  (grouped_ids channel_list).foldl
    (fun epg_data group =>
      match respond group with
      | .ok rows => epg_data ++ rows
      | _ => epg_data)
    []

/-! ## Guide time conversion (`convert_to_xmltv_format`, lines 322-332)

`datetime.strptime(iso_time, "%Y-%m-%dT%H:%M:%SZ")` followed by
`dt.strftime("%Y%m%d%H%M%S +0000")`, with `ValueError` mapped to returning
the input unchanged.  `strptime`'s field regexes are: `%Y` exactly four
digits; `%m` `1[0-2]|0[1-9]|[1-9]`; `%d` `3[01]|[12]\d|0[1-9]|[1-9]`;
`%H` `2[0-3]|[0-1]\d|\d`; `%M`,`%S` `[0-5]\d|\d`; then `datetime(...)`
validates the day against the month length and the year against MINYEAR.
When a two-digit run fails its range test the one-digit alternative cannot
rescue the match (the following literal separator would have to match the
second digit), so a greedy two-digit-first parse is equivalent. -/

def digitVal (c : Char) : Nat := c.toNat - 48

/-- `%Y`: exactly four digits. -/
def parseY : List Char → Option (Nat × List Char)
  | a :: b :: c :: d :: rest =>
    if a.isDigit ∧ b.isDigit ∧ c.isDigit ∧ d.isDigit then
      some (1000 * digitVal a + 100 * digitVal b + 10 * digitVal c + digitVal d, rest)
    else none
  | _ => none

/-- A two-or-one digit field: a two-digit run must lie in `[lo2, hi2]`,
a single digit in `[lo1, 9]`. -/
def parseField (lo2 hi2 lo1 : Nat) : List Char → Option (Nat × List Char)
  | [] => none
  | a :: rest =>
    if a.isDigit then
      match rest with
      | b :: rest2 =>
        if b.isDigit then
          let v := 10 * digitVal a + digitVal b
          if lo2 ≤ v ∧ v ≤ hi2 then some (v, rest2) else none
        else
          if lo1 ≤ digitVal a then some (digitVal a, rest) else none
      | [] =>
        if lo1 ≤ digitVal a then some (digitVal a, []) else none
    else none

def expectChar (c : Char) : List Char → Option (List Char)
  | x :: rest => if x = c then some rest else none
  | [] => none

/-- Month length as validated by `datetime.__new__`. -/
def days_in_month (y m : Nat) : Nat :=
  if m = 2 then
    if y % 4 = 0 ∧ (y % 100 ≠ 0 ∨ y % 400 = 0) then 29 else 28
  else if m = 4 ∨ m = 6 ∨ m = 9 ∨ m = 11 then 30 else 31

/-- `datetime.strptime(s, "%Y-%m-%dT%H:%M:%SZ")`: the whole string must be
consumed, and the constructed datetime must be valid (year ≥ 1, day within
the month).  Returns (year, month, day, hour, minute, second). -/
def strptime_iso (s : String) : Option (Nat × Nat × Nat × Nat × Nat × Nat) := do
  let (y, r1) ← parseY s.data
  let r2 ← expectChar '-' r1
  let (mo, r3) ← parseField 1 12 1 r2
  let r4 ← expectChar '-' r3
  let (d, r5) ← parseField 1 31 1 r4
  let r6 ← expectChar 'T' r5
  let (h, r7) ← parseField 0 23 0 r6
  let r8 ← expectChar ':' r7
  let (mi, r9) ← parseField 0 59 0 r8
  let r10 ← expectChar ':' r9
  let (se, r11) ← parseField 0 59 0 r10
  let r12 ← expectChar 'Z' r11
  match r12 with
  | [] => if 1 ≤ y ∧ d ≤ days_in_month y mo then some (y, mo, d, h, mi, se) else none
  | _ => none

def pad2 (n : Nat) : String := if n < 10 then "0" ++ toString n else toString n

def pad4 (n : Nat) : String :=
  if n < 10 then "000" ++ toString n
  else if n < 100 then "00" ++ toString n
  else if n < 1000 then "0" ++ toString n
  else toString n

/-- `convert_to_xmltv_format` (lines 322-332): format the parsed time as
`%Y%m%d%H%M%S +0000`; on `ValueError` return the input unchanged. -/
def convert_to_xmltv_format (iso_time : String) : String :=
  match strptime_iso iso_time with
  | some (y, mo, d, h, mi, se) =>
    pad4 y ++ pad2 mo ++ pad2 d ++ pad2 h ++ pad2 mi ++ pad2 se ++ " +0000"
  | none => iso_time

/-! ## Payload text repair (`fetch_channel_list`, lines 96-97)

`json_string.replace('undefined', 'null')` — Python `str.replace` rewrites
every non-overlapping occurrence of the substring, left to right, wherever
it appears; then `re.sub(r'new Date\("([^\"]*)"\)', r'"\1"', json_string)`
rewrites every `new Date("X")` (with `X` free of double quotes) to `"X"`. -/

/-- Python `str.replace old rep` for a nonempty `old` (the guard makes the
empty-pattern case a no-op; the program only uses `old = "undefined"`):
scan left to right, replacing each non-overlapping occurrence. -/
def py_replace (old rep : List Char) : List Char → List Char
  | [] => []
  | c :: rest =>
    if h : old ≠ [] ∧ old <+: (c :: rest) then
      rep ++ py_replace old rep ((c :: rest).drop old.length)
    else
      c :: py_replace old rep rest
termination_by l => l.length
decreasing_by
  · have : 0 < old.length := List.length_pos.mpr h.1
    simp [List.length_drop]; omega
  · simp

/-- The literal part of the pattern `new Date\("`. -/
def new_date_pat : List Char := "new Date(\"".data

/-- Try to match `new Date\("([^"]*)"\)` at the head of `l`: on success
return the capture and the remainder after the match.  The greedy `[^"]*`
necessarily stops at the next `"`, so no backtracking arises. -/
def match_new_date (l : List Char) : Option (List Char × List Char) :=
  if new_date_pat <+: l then
    match (l.drop new_date_pat.length).dropWhile (fun c => c ≠ '"') with
    | '"' :: ')' :: rest =>
      some ((l.drop new_date_pat.length).takeWhile (fun c => c ≠ '"'), rest)
    | _ => none
  else none

/-- `re.sub(r'new Date\("([^\"]*)"\)', r'"\1"', s)`: scan left to right; at
each match emit `"X"` and continue after the match (the continuation point
`rest` of `match_new_date` equals dropping the whole 12 + |X| character
match, which is how the recursion is phrased for termination). -/
def sub_new_date : List Char → List Char
  | [] => []
  | c :: rest =>
    match match_new_date (c :: rest) with
    | some (x, _) => '"' :: (x ++ '"' :: sub_new_date ((c :: rest).drop (12 + x.length)))
    | none => c :: sub_new_date rest
termination_by l => l.length
decreasing_by all_goals simp [List.length_drop] <;> omega

/-- The full text of one date-constructor call `new Date("X")`. -/
def nd_construct (x : List Char) : List Char :=
  "new Date(".data ++ '"' :: (x ++ ['"', ')'])

/-- Reassemble a script text from a decomposition into context/payload
segments followed by a final tail: `c0 ++ new Date("x0") ++ c1 ++
new Date("x1") ++ ... ++ last`. -/
def assemble : List (List Char × List Char) → List Char → List Char
  | [], last => last
  | p :: rest, last => p.1 ++ (nd_construct p.2 ++ assemble rest last)

/-- The same decomposition with every date-constructor call replaced by the
quoted string, around an already-processed tail `t`. -/
def assemble_out : List (List Char × List Char) → List Char → List Char
  | [], t => t
  | p :: rest, t => p.1 ++ '"' :: (p.2 ++ '"' :: assemble_out rest t)

/-- No match of the date pattern starts strictly inside the context `c`
(when followed by `tail`): this is exactly the leftmost-match discipline of
`re.sub`, under which the segments of the decomposition are the actual
matches found by the scan. -/
def ctx_clear (c tail : List Char) : Bool :=
  (List.range c.length).all (fun i => (match_new_date (c.drop i ++ tail)).isNone)

/-- Well-formed decomposition: every payload is free of double quotes (the
regex class `[^"]*`) and no match starts inside any context segment. -/
def segs_ok : List (List Char × List Char) → List Char → Bool
  | [], _ => true
  | p :: rest, last =>
      decide ('"' ∉ p.2) &&
        ctx_clear p.1 (nd_construct p.2 ++ assemble rest last) &&
        segs_ok rest last

/-! ## URL cleaning (`clean_stream_url`, lines 282-285, and the
`unquote` at line 265)

`urlparse` splits a URL into scheme / netloc / path / params / query /
fragment exactly as CPython's `urllib.parse` does (sans the control-character
sanitization, which the claims never touch); `urlunparse` with empty params,
query and fragment reassembles scheme, netloc and path. -/

/-- CPython `scheme_chars`: ASCII letters, digits, `+`, `-`, `.`. -/
def isSchemeChar (c : Char) : Bool :=
  c.isAlpha || c.isDigit || c = '+' || c = '-' || c = '.'

/-- Python `str.lower` on the ASCII range (scheme characters are all ASCII,
so this is exact where the program applies it). -/
def py_lower_char (c : Char) : Char :=
  match c with
  | 'A' => 'a' | 'B' => 'b' | 'C' => 'c' | 'D' => 'd' | 'E' => 'e'
  | 'F' => 'f' | 'G' => 'g' | 'H' => 'h' | 'I' => 'i' | 'J' => 'j'
  | 'K' => 'k' | 'L' => 'l' | 'M' => 'm' | 'N' => 'n' | 'O' => 'o'
  | 'P' => 'p' | 'Q' => 'q' | 'R' => 'r' | 'S' => 's' | 'T' => 't'
  | 'U' => 'u' | 'V' => 'v' | 'W' => 'w' | 'X' => 'x' | 'Y' => 'y'
  | 'Z' => 'z'
  | d => d

/-- A non-empty all-scheme-character token starting with a letter:
`urlsplit`'s condition for recognizing `url[:i]` as the scheme. -/
def validScheme : List Char → Bool
  | [] => false
  | c :: cs => c.isAlpha && (c :: cs).all isSchemeChar

/-- `urlsplit` scheme recognition: `i = url.find(':')`; if `i > 0`, the
first character is an ASCII letter and everything before the colon is a
scheme character, the (lowercased) scheme is split off. -/
def split_scheme (l : List Char) : List Char × List Char :=
  let pre := l.takeWhile (fun c => c ≠ ':')
  if pre.length < l.length ∧ validScheme pre = true then
    (pre.map py_lower_char, l.drop (pre.length + 1))
  else
    ([], l)

/-- The characters at which `_splitnetloc` stops. -/
def netloc_stop (c : Char) : Bool := c = '/' || c = '?' || c = '#'

/-- `urlsplit` netloc recognition: when `url[:2] == '//'`, the netloc runs
from position 2 up to the first `/`, `?` or `#` (which stays in the
remainder, as in `_splitnetloc`). -/
def split_netloc (l : List Char) : List Char × List Char :=
  if l.take 2 = ['/', '/'] then
    ((l.drop 2).takeWhile (fun c => !netloc_stop c),
      (l.drop 2).dropWhile (fun c => !netloc_stop c))
  else ([], l)

/-- After the netloc, `urlsplit` drops the fragment (from the first `#`) and
then the query (from the first `?` of what precedes it): the path is the
prefix before the first of either. -/
def path_part (l : List Char) : List Char :=
  l.takeWhile (fun c => c ≠ '#' && c ≠ '?')

/-- Decompose at the LAST `/`: `some (pre, seg)` with `p = pre ++ '/' :: seg`
and no `/` in `seg`; `none` when there is no slash. -/
def splitLastSlash : List Char → Option (List Char × List Char)
  | [] => none
  | c :: cs =>
    match splitLastSlash cs with
    | some (pre, seg) => some (c :: pre, seg)
    | none => if c = '/' then some ([], cs) else none

/-- `urlparse`'s `_splitparams` (keeping only the path half): if the path
contains `;`, drop from the first `;` at or after the last `/` (or from the
first `;` when there is no slash); otherwise unchanged. -/
def strip_params (p : List Char) : List Char :=
  if ';' ∈ p then
    match splitLastSlash p with
    | some (pre, seg) =>
      if ';' ∈ seg then pre ++ '/' :: seg.takeWhile (fun c => c ≠ ';') else p
    | none => p.takeWhile (fun c => c ≠ ';')
  else p

/-- `urlparse(url)` restricted to the three components `clean_stream_url`
keeps: `(scheme, netloc, path)`. -/
def urlparse3 (l : List Char) : List Char × List Char × List Char :=
  let sp := split_scheme l
  let np := split_netloc sp.2
  (sp.1, np.1, strip_params (path_part np.2))

/-- CPython's `uses_netloc` (the empty-string member is unreachable behind
the `scheme and ...` truthiness guard and is omitted). -/
def uses_netloc : List (List Char) :=
  ["ftp".data, "http".data, "gopher".data, "nntp".data, "telnet".data,
   "imap".data, "wais".data, "file".data, "mms".data, "https".data,
   "shttp".data, "snews".data, "prospero".data, "rtsp".data, "rtsps".data,
   "rtspu".data, "rsync".data, "svn".data, "svn+ssh".data, "sftp".data,
   "nfs".data, "git".data, "git+ssh".data, "ws".data, "wss".data]

/-- `urlunsplit`'s `if url and url[:1] != '/': url = '/' + url`. -/
def force_slash : List Char → List Char
  | [] => []
  | c :: cs => if c = '/' then c :: cs else '/' :: c :: cs

/-- `urlunparse((scheme, netloc, path, '', '', ''))` as in CPython 3.11's
`urlunsplit`: if the netloc is nonempty, or the scheme is truthy, uses a
netloc and the path does not already start with `//`, emit `//netloc` and
force a leading `/` on a nonempty path; prepend `scheme:` when there is a
scheme. -/
def urlunparse3 (scheme netloc path : List Char) : List Char :=
  let url :=
    if netloc ≠ [] ∨ (scheme ≠ [] ∧ scheme ∈ uses_netloc ∧ path.take 2 ≠ ['/', '/']) then
      '/' :: '/' :: (netloc ++ force_slash path)
    else path
  if scheme ≠ [] then scheme ++ ':' :: url else url

/-- `clean_stream_url` (lines 282-285) on the character list. -/
def cleanL (l : List Char) : List Char :=
  let p := urlparse3 l
  urlunparse3 p.1 p.2.1 p.2.2

/-- `clean_stream_url(url)` (lines 282-285): keep only scheme, netloc and
path of the parsed URL. -/
def clean_stream_url (url : String) : String :=
  String.mk (cleanL url.data)

def isHexDigit (c : Char) : Bool :=
  c.isDigit || ('a' ≤ c && c ≤ 'f') || ('A' ≤ c && c ≤ 'F')

def hexVal (c : Char) : Nat :=
  if c.isDigit then c.toNat - 48
  else if 'a' ≤ c then c.toNat - 87
  else c.toNat - 55

/-- `urllib.parse.unquote` at the character level: each valid `%XX` escape
becomes the character with that code (exact for the ASCII escapes the claims
exercise); an invalid escape leaves the `%` literal and scanning resumes at
the next character. -/
def unquoteL : List Char → List Char
  | [] => []
  | '%' :: a :: b :: rest =>
    if isHexDigit a && isHexDigit b then
      Char.ofNat (16 * hexVal a + hexVal b) :: unquoteL rest
    else
      '%' :: unquoteL (a :: b :: rest)
  | c :: rest => c :: unquoteL rest

def unquote (s : String) : String := String.mk (unquoteL s.data)

/-- The full cleaning the spec calls `clean`: the `unquote` applied at the
call site (line 265) followed by `clean_stream_url` (line 266). -/
def clean_url_full (u : String) : String := clean_stream_url (unquote u)

/-! ## Schedule rows and the playlist composer
(`create_m3u_playlist`, lines 252-279; `create_epg_xml`, lines 288-319) -/

structure ProgramEntry where
  start_time : String
  end_time : String
  title : String
  description : Option String
deriving DecidableEq, Repr

/-- One schedule row as the composers consume it.  `title` is `none` when
the `'title'` key is absent; `video_resources` carries the manifest URLs
(`r['manifest']['url']` of each resource); `thumbnail` is `none` when
`images` has no `'thumbnail'` key (or `images` itself is absent), and
`some l` when the key maps to the list `l`. -/
structure ScheduleRow where
  title : Option String
  content_id : String
  video_resources : List String
  thumbnail : Option (List String)
  programs : List ProgramEntry
deriving DecidableEq, Repr

/-- The sort key of line 254: `x.get('title', '').lower()` (ASCII case
folding, which is exact for the titles the claims exercise). -/
def sort_key (x : ScheduleRow) : List Char :=
  (x.title.getD "").data.map py_lower_char

/-- Python's string comparison: lexicographic by code point. -/
def chars_le : List Char → List Char → Bool
  | [], _ => true
  | _ :: _, [] => false
  | a :: as, b :: bs =>
    if a.toNat < b.toNat then true
    else if b.toNat < a.toNat then false
    else chars_le as bs

def rowLe (a b : ScheduleRow) : Prop := chars_le (sort_key a) (sort_key b) = true

instance : DecidableRel rowLe := fun a b =>
  inferInstanceAs (Decidable (chars_le (sort_key a) (sort_key b) = true))

/-- `sorted(epg_data, key=lambda x: x.get('title', '').lower())` (line 254).
Python's `sorted` is a stable sort; insertion sort is stable, and any two
stable sorts of the same list under the same key agree. -/
def sorted_epg_data (epg_data : List ScheduleRow) : List ScheduleRow :=
  List.insertionSort rowLe epg_data

/-- Line 265: `unquote(elem['video_resources'][0]['manifest']['url']) if
elem.get('video_resources') else ''`. -/
def raw_stream_url (elem : ScheduleRow) : String :=
  match elem.video_resources with
  | [] => ""
  | u :: _ => unquote u

/-- Line 268: `elem.get('images', {}).get('thumbnail', [None])[0]`.
When the key is absent the default `[None]` makes this `None`; when the key
is present with an empty list, `[][0]` raises `IndexError`. -/
def logo_url (elem : ScheduleRow) : Except String (Option String) :=
  match elem.thumbnail with
  | none => .ok none
  | some [] => .error "IndexError: list index out of range"
  | some (t :: _) => .ok (some t)

/-- How a Python f-string renders the logo slot (`None` prints as `None`). -/
def pyStr : Option String → String
  | none => "None"
  | some s => s

/-- `group_mapping.get(tvg_id, 'Other')` over an association list. -/
def dict_get (m : List (String × String)) (k default : String) : String :=
  match m.find? (fun p => p.1 == k) with
  | some p => p.2
  | none => default

/-- One surviving playlist entry with the fields of the `#EXTINF` line. -/
structure M3uEntry where
  tvg_id : String
  logo : Option String
  group_title : String
  channel_name : String
  clean_url : String
deriving DecidableEq, Repr

def render_entry (e : M3uEntry) : String :=
  "#EXTINF:-1 tvg-id=\"" ++ e.tvg_id ++ "\" tvg-logo=\"" ++ pyStr e.logo ++
    "\" group-title=\"" ++ e.group_title ++ "\"," ++ e.channel_name ++ "\n" ++
    e.clean_url ++ "\n"

/-- The body loop of `create_m3u_playlist` (lines 259-277): for each row in
sorted order compute the cleaned URL, the logo (which can raise), the group
title; emit the entry only when the cleaned URL is nonempty and unseen.
`seen` is the `seen_urls` set. -/
def m3u_entries : List ScheduleRow → List (String × String) → List String →
    Except String (List M3uEntry)
  | [], _, _ => .ok []
  | elem :: rest, group_mapping, seen =>
    let channel_name := elem.title.getD "Unknown Channel"
    let stream_url := raw_stream_url elem
    let clean_url := clean_stream_url stream_url
    let tvg_id := elem.content_id
    match logo_url elem with
    | .error e => .error e
    | .ok logo =>
      let group_title := dict_get group_mapping tvg_id "Other"
      if clean_url ≠ "" ∧ clean_url ∉ seen then
        match m3u_entries rest group_mapping (clean_url :: seen) with
        | .error e => .error e
        | .ok es => .ok (⟨tvg_id, logo, group_title, channel_name, clean_url⟩ :: es)
      else
        m3u_entries rest group_mapping seen

/-- `create_m3u_playlist` (lines 252-279): header line with the
country-parametrized guide URL, then the rendered entries.  An `IndexError`
from the logo extraction aborts the whole composition. -/
def create_m3u_playlist (epg_data : List ScheduleRow)
    (group_mapping : List (String × String)) (country : String) :
    Except String String :=
  match m3u_entries (sorted_epg_data epg_data) group_mapping [] with
  | .error e => .error e
  | .ok es =>
    .ok ("#EXTM3U url-tvg=\"https://github.com/dtankdempse/tubi-m3u/raw/refs/heads/main/tubi_epg_"
          ++ country ++ ".xml\"\n" ++ String.join (es.map render_entry))

/-- Lines 296-297 of `create_epg_xml`: `thumbnails = station.get('images',
{}).get('thumbnail', [])`; `icon_src = thumbnails[0] if thumbnails else
None` — total, unlike `logo_url`. -/
def epg_icon (station : ScheduleRow) : Option String :=
  match station.thumbnail with
  | none => none
  | some [] => none
  | some (t :: _) => some t

inductive XmlNode where
  | channel (id : String) (display_name : String) (icon : Option String)
  | programme (channel : String) (start stop : String) (title : String)
      (desc : Option String)
deriving DecidableEq, Repr

/-- `create_epg_xml` (lines 288-319) as the list of emitted elements in
document order: per station one `channel` element then its `programme`
elements, with times converted and a falsy description omitted. -/
def create_epg_xml (epg_data : List ScheduleRow) : List XmlNode :=
  epg_data.foldr
    (fun station acc =>
      XmlNode.channel station.content_id (station.title.getD "Unknown Title")
          (epg_icon station)
        :: (station.programs.map (fun program =>
              XmlNode.programme station.content_id
                (convert_to_xmltv_format program.start_time)
                (convert_to_xmltv_format program.end_time)
                program.title
                (match program.description with
                 | some d => if d ≠ "" then some d else none
                 | none => none))
            ++ acc))
    []

/-- First-occurrence deduplication, written independently of the
`seen_urls` scan: keep each value's first occurrence, delete the rest. -/
def first_dedup : List String → List String
  | [] => []
  | u :: us => u :: first_dedup (us.filter (fun v => v ≠ u))
termination_by l => l.length
decreasing_by
  have h := List.length_filter_le (fun v => decide (v ≠ c)) cs
  simp only [List.length_cons]; omega

/-- The URL trace of the `seen_urls` scan: emit each URL that is nonempty
and not yet seen, marking it seen. -/
def emitted_urls (seen : List String) : List String → List String
  | [] => []
  | u :: us =>
    if u = "" ∨ u ∈ seen then emitted_urls seen us
    else u :: emitted_urls (u :: seen) us

/-! # Theorems -/

/-! ## The fetch controller (C1, C2) -/

theorem country_loop_attempts_le (os : List AttemptOutcome) :
    ∀ r, (country_loop os r).1 ≤ (MAX_RETRIES - r) + os.count .emptyChannels := by
  induction os with
  | nil => intro r; simp [country_loop]
  | cons o rest ih =>
    intro r
    by_cases hr : MAX_RETRIES ≤ r
    · simp [country_loop, hr]
    · have h1 := ih r
      have h2 := ih (r + 1)
      cases o <;> simp [country_loop, hr, List.count_cons] <;>
        simp [MAX_RETRIES] at * <;> omega

theorem country_loop_attempts_le_length (os : List AttemptOutcome) :
    ∀ r, (country_loop os r).1 ≤ os.length := by
  induction os with
  | nil => intro r; simp [country_loop]
  | cons o rest ih =>
    intro r
    by_cases hr : MAX_RETRIES ≤ r
    · simp [country_loop, hr]
    · have h1 := ih r
      have h2 := ih (r + 1)
      cases o <;> simp [country_loop, hr] <;> omega

theorem country_loop_stops_at_success (pre : List AttemptOutcome)
    (post : List AttemptOutcome) :
    ∀ r, country_loop (pre ++ .success :: post) r = country_loop (pre ++ [.success]) r := by
  induction pre with
  | nil => intro r; simp [country_loop]
  | cons o pre' ih =>
    intro r
    by_cases hr : MAX_RETRIES ≤ r
    · simp [country_loop, hr]
    · cases o <;> simp [country_loop, hr, ih]

/-- C1: FALSE as stated.  The claim says at most 10 fetch attempts are made
regardless of the number of candidates; but a payload that decodes with an
empty channel list hits `continue` without incrementing `retries`, so eleven
such candidates absorb eleven fetch attempts. -/
theorem C1_counterexample :
    ¬ ((country_loop (List.replicate 11 AttemptOutcome.emptyChannels) 0).1 ≤ MAX_RETRIES) := by
  decide

/-- C1 (amended): the budget of 10 bounds only the attempts that consume the
retry counter: the attempt count is at most `10 + (number of
empty-channel-list decodes)` and never exceeds the number of candidates; and
the loop stops at the first fully successful attempt — candidates after it
are never examined. -/
theorem C1_theorem :
    (∀ os : List AttemptOutcome,
        (country_loop os 0).1 ≤ MAX_RETRIES + os.count .emptyChannels ∧
        (country_loop os 0).1 ≤ os.length) ∧
    (∀ (pre post : List AttemptOutcome) (r : Nat),
        country_loop (pre ++ .success :: post) r = country_loop (pre ++ [.success]) r) := by
  refine ⟨fun os => ⟨?_, country_loop_attempts_le_length os 0⟩,
    fun pre post r => country_loop_stops_at_success pre post r⟩
  have h := country_loop_attempts_le os 0
  simpa using h

/-- C2: FALSE as stated.  The claim says an empty channel list or an empty
schedule result terminates processing of the country with no output files;
but both paths `continue` to the next proxy candidate, which here succeeds:
two attempts are made and the files are written. -/
theorem C2_counterexample :
    country_loop [AttemptOutcome.emptyChannels, AttemptOutcome.success] 0 = (2, true) ∧
    country_loop [AttemptOutcome.emptySchedule, AttemptOutcome.success] 0 = (2, true) := by
  decide

/-- C2 (amended): an empty channel list moves the loop to the next proxy
candidate without consuming retry budget, an empty schedule result moves on
consuming one unit of budget; the failing attempt itself writes no files
(a country whose only candidate fails that way produces none), and the
countries are processed independently of one another. -/
theorem C2_theorem :
    (∀ (rest : List AttemptOutcome) (r : Nat), r < MAX_RETRIES →
        country_loop (.emptyChannels :: rest) r =
          ((country_loop rest r).1 + 1, (country_loop rest r).2) ∧
        country_loop (.emptySchedule :: rest) r =
          ((country_loop rest (r + 1)).1 + 1, (country_loop rest (r + 1)).2)) ∧
    country_loop [AttemptOutcome.emptyChannels] 0 = (1, false) ∧
    country_loop [AttemptOutcome.emptySchedule] 0 = (1, false) ∧
    (∀ runs₁ runs₂ : List (List AttemptOutcome),
        main_run (runs₁ ++ runs₂) = main_run runs₁ ++ main_run runs₂) := by
  refine ⟨?_, by decide, by decide, fun runs₁ runs₂ => by simp [main_run]⟩
  intro rest r hr
  constructor <;> simp [country_loop, Nat.not_le.mpr hr]

theorem C2_theorem_witness :
    country_loop [AttemptOutcome.emptyChannels, AttemptOutcome.emptySchedule] 0 =
      ((country_loop [AttemptOutcome.emptySchedule] 0).1 + 1,
        (country_loop [AttemptOutcome.emptySchedule] 0).2) :=
  (C2_theorem.1 [AttemptOutcome.emptySchedule] 0 (by decide)).1

/-! ## The egress resolver (C3) -/

/-- C3: FALSE as stated.  `requests.get` in `get_proxies` is not guarded, so
a transport failure propagates out as an exception instead of yielding the
empty sequence the claim promises. -/
theorem C3_counterexample :
    get_proxies (Except.error TransportError.connectionError) =
        Except.error TransportError.connectionError ∧
    get_proxies (Except.error TransportError.connectionError) ≠
        (Except.ok [] : Except TransportError (List String)) :=
  ⟨rfl, fun h => Except.noConfusion h⟩

/-- C3 (amended): a non-success response yields the empty sequence, but a
transport failure from the proxy directory propagates out of `get_proxies`
(and so out of the per-country pipeline) as an error. -/
theorem C3_theorem :
    (∀ (status : Nat) (text : String), status ≠ 200 →
        get_proxies (.ok ⟨status, text⟩) = .ok []) ∧
    (∀ e : TransportError, get_proxies (.error e) = .error e) := by
  refine ⟨fun status text h => ?_, fun e => rfl⟩
  simp [get_proxies, h]

theorem C3_theorem_witness :
    get_proxies (.ok ⟨404, "error page"⟩) = .ok [] :=
  C3_theorem.1 404 "error page" (by decide)

/-! ## The schedule batch fetcher (C7) -/

theorem grouped_ids_length (l : List String) :
    (grouped_ids l).length = (l.length + 149) / 150 := by
  induction l using grouped_ids.induct with
  | case1 => simp [grouped_ids]
  | case2 c cs ih =>
    simp only [grouped_ids, List.length_cons, List.length_drop] at *
    omega

theorem grouped_ids_join (l : List String) : (grouped_ids l).join = l := by
  induction l using grouped_ids.induct with
  | case1 => simp [grouped_ids]
  | case2 c cs ih =>
    simp only [grouped_ids, List.join_cons, ih]
    exact List.take_append_drop 150 (c :: cs)

theorem grouped_ids_size (l : List String) :
    ∀ g ∈ grouped_ids l, g.length ≤ 150 := by
  induction l using grouped_ids.induct with
  | case1 => simp [grouped_ids]
  | case2 c cs ih =>
    intro g hg
    simp only [grouped_ids, List.mem_cons] at hg
    rcases hg with h | h
    · subst h; simpa using List.length_take_le 150 (c :: cs)
    · exact ih g h

theorem foldl_batches {ρ : Type} (respond : List String → BatchResult ρ) :
    ∀ (gs : List (List String)) (acc : List ρ),
      gs.foldl
        (fun epg_data group =>
          match respond group with
          | .ok rows => epg_data ++ rows
          | _ => epg_data) acc =
      acc ++ (gs.map (fun g =>
        match respond g with
        | .ok rows => rows
        | _ => [])).join := by
  intro gs
  induction gs with
  | nil => intro acc; simp
  | cons g gs ih =>
    intro acc
    simp only [List.foldl_cons, List.map_cons, List.join_cons, ih]
    cases h : respond g <;> simp [h]

/-- C7: the batch fetcher issues one request per batch; there are exactly
`⌈L/150⌉` batches, together they partition the identifier list, each has at
most 150 identifiers, and the accumulated result is the in-order
concatenation of the successful batches' rows — a failed batch contributes
nothing and prevents nothing. -/
theorem C7_theorem {ρ : Type} (respond : List String → BatchResult ρ)
    (channel_list : List String) :
    (grouped_ids channel_list).length = (channel_list.length + 149) / 150 ∧
    (grouped_ids channel_list).join = channel_list ∧
    (∀ g ∈ grouped_ids channel_list, g.length ≤ 150) ∧
    fetch_epg_data respond channel_list =
      ((grouped_ids channel_list).map (fun g =>
        match respond g with
        | .ok rows => rows
        | _ => [])).join := by
  refine ⟨grouped_ids_length channel_list, grouped_ids_join channel_list,
    grouped_ids_size channel_list, ?_⟩
  simpa [fetch_epg_data] using foldl_batches respond (grouped_ids channel_list) []

theorem C7_theorem_witness :
    (["a", "b"] : List String).length ≤ 150 :=
  (C7_theorem (fun _ => BatchResult.ok ([] : List Nat)) ["a", "b"]).2.2.1
    ["a", "b"] (by simp [grouped_ids])

/-! ## Lenient time conversion (C8) -/

/-- C8: `convert_to_xmltv_format` maps the example ISO time to the XMLTV
form, and any input that fails to parse is returned unchanged. -/
theorem C8_theorem :
    convert_to_xmltv_format "2024-10-08T01:00:00Z" = "20241008010000 +0000" ∧
    convert_to_xmltv_format "not-a-date" = "not-a-date" ∧
    ∀ s : String, strptime_iso s = none → convert_to_xmltv_format s = s := by
  refine ⟨by rfl, by rfl, fun s h => ?_⟩
  simp [convert_to_xmltv_format, h]

theorem C8_theorem_witness :
    convert_to_xmltv_format "2024-13-01T00:00:00Z" = "2024-13-01T00:00:00Z" :=
  C8_theorem.2.2 "2024-13-01T00:00:00Z" (by rfl)

/-! ## Partial logo extraction (C10) -/

/-- C10: a row whose `images` mapping binds `'thumbnail'` to an empty list
makes `create_m3u_playlist` raise (`[][0]` is an `IndexError`), while
`create_epg_xml` handles the same row by omitting the icon; the `[None]`
default applies only when the key is absent. -/
theorem C10_theorem :
    logo_url ⟨some "Z", "5", ["http://h/z"], some [], []⟩ =
        .error "IndexError: list index out of range" ∧
    create_m3u_playlist [⟨some "Z", "5", ["http://h/z"], some [], []⟩] [] "us" =
        .error "IndexError: list index out of range" ∧
    epg_icon ⟨some "Z", "5", ["http://h/z"], some [], []⟩ = none ∧
    create_epg_xml [⟨some "Z", "5", ["http://h/z"], some [], []⟩] =
        [XmlNode.channel "5" "Z" none] ∧
    ∀ r : ScheduleRow, r.thumbnail = none → logo_url r = .ok none := by
  refine ⟨rfl, rfl, rfl, rfl, fun r h => ?_⟩
  simp [logo_url, h]

theorem C10_theorem_witness :
    logo_url ⟨some "A", "1", [], none, []⟩ = .ok none :=
  C10_theorem.2.2.2.2 ⟨some "A", "1", [], none, []⟩ rfl

/-! ## Sort order and stability (C9) -/

theorem chars_le_refl (l : List Char) : chars_le l l = true := by
  induction l with
  | nil => rfl
  | cons a as ih => simp [chars_le, ih]

theorem chars_le_total (a : List Char) : ∀ b, chars_le a b = true ∨ chars_le b a = true := by
  induction a with
  | nil => intro b; left; rfl
  | cons x xs ih =>
    intro b
    cases b with
    | nil => right; rfl
    | cons y ys =>
      rcases Nat.lt_trichotomy x.toNat y.toNat with h | h | h
      · left; simp [chars_le, h]
      · have h1 : ¬ x.toNat < y.toNat := by omega
        have h2 : ¬ y.toNat < x.toNat := by omega
        simp only [chars_le, if_neg h1, if_neg h2]
        exact ih ys
      · right; simp [chars_le, h]

theorem chars_le_trans (a : List Char) :
    ∀ b c, chars_le a b = true → chars_le b c = true → chars_le a c = true := by
  induction a with
  | nil => intro b c _ _; rfl
  | cons x xs ih =>
    intro b c hab hbc
    cases b with
    | nil => simp [chars_le] at hab
    | cons y ys =>
      cases c with
      | nil => simp [chars_le] at hbc
      | cons z zs =>
        simp only [chars_le] at hab hbc ⊢
        by_cases h1 : x.toNat < y.toNat <;> by_cases h2 : y.toNat < z.toNat
        · simp [show x.toNat < z.toNat from by omega]
        · by_cases h3 : z.toNat < y.toNat
          · simp [h2, h3] at hbc
          · simp [show x.toNat < z.toNat from by omega]
        · by_cases h3 : y.toNat < x.toNat
          · simp [h1, h3] at hab
          · simp [show x.toNat < z.toNat from by omega]
        · by_cases h3 : y.toNat < x.toNat
          · simp [h1, h3] at hab
          · by_cases h4 : z.toNat < y.toNat
            · simp [h2, h4] at hbc
            · have hxz1 : ¬ x.toNat < z.toNat := by omega
              have hxz2 : ¬ z.toNat < x.toNat := by omega
              simp only [if_neg h1, if_neg h3] at hab
              simp only [if_neg h2, if_neg h4] at hbc
              simp only [if_neg hxz1, if_neg hxz2]
              exact ih ys zs hab hbc

theorem filter_orderedInsert (k : List Char) (a : ScheduleRow) (l : List ScheduleRow) :
    (l.orderedInsert rowLe a).filter (fun x => sort_key x == k) =
      if sort_key a == k then a :: l.filter (fun x => sort_key x == k)
      else l.filter (fun x => sort_key x == k) := by
  rw [List.orderedInsert_eq_take_drop]
  have htw : (sort_key a = k) →
      (l.takeWhile fun b => ¬ rowLe a b).filter (fun x => sort_key x == k) = [] := by
    intro hk
    rw [List.filter_eq_nil_iff]
    intro x hx
    have hq := List.mem_takeWhile_imp hx
    simp only [decide_eq_true_eq] at hq
    simp only [beq_iff_eq]
    intro hxk
    exact hq (show chars_le (sort_key a) (sort_key x) = true by
      rw [hk, hxk]; exact chars_le_refl k)
  by_cases hk : sort_key a = k
  · rw [List.filter_append, htw hk, if_pos (by simpa using hk)]
    conv_rhs => rw [← List.takeWhile_append_dropWhile
      (p := fun b => decide (¬ rowLe a b)) (l := l)]
    rw [List.filter_append, htw hk]
    simp [List.filter_cons, hk]
  · rw [if_neg (by simpa using hk)]
    conv_rhs => rw [← List.takeWhile_append_dropWhile
      (p := fun b => decide (¬ rowLe a b)) (l := l)]
    rw [List.filter_append, List.filter_append]
    simp [List.filter_cons, hk]

theorem insertionSort_filter_key (k : List Char) (l : List ScheduleRow) :
    (List.insertionSort rowLe l).filter (fun x => sort_key x == k) =
      l.filter (fun x => sort_key x == k) := by
  induction l with
  | nil => rfl
  | cons a t ih =>
    simp only [List.insertionSort]
    rw [filter_orderedInsert k a (List.insertionSort rowLe t), ih]
    by_cases hk : sort_key a = k <;> simp [List.filter_cons, hk]

/-- C9: the playlist's row order is the case-insensitively ascending title
order (code-point lexicographic on the case-folded titles), and rows whose
case-folded titles are equal keep their relative pre-sort order (for each
key, filtering the sorted list by that key gives exactly the input's rows
with that key, in input order). -/
theorem C9_theorem (epg_data : List ScheduleRow) :
    (sorted_epg_data epg_data).Pairwise
      (fun a b => chars_le (sort_key a) (sort_key b) = true) ∧
    ∀ k : List Char,
      (sorted_epg_data epg_data).filter (fun x => sort_key x == k) =
        epg_data.filter (fun x => sort_key x == k) := by
  constructor
  · haveI : IsTotal ScheduleRow rowLe := ⟨fun a b => chars_le_total (sort_key a) (sort_key b)⟩
    haveI : IsTrans ScheduleRow rowLe :=
      ⟨fun a b c => chars_le_trans (sort_key a) (sort_key b) (sort_key c)⟩
    have h := List.sorted_insertionSort rowLe epg_data
    exact h.imp (fun hab => hab)
  · exact fun k => insertionSort_filter_key k epg_data

/-! ## URL cleaning (C4) -/

theorem takeWhile_append_all {α : Type} (p : α → Bool) (x : List α) (d : α) (r : List α)
    (hx : ∀ c ∈ x, p c = true) (hd : p d = false) :
    (x ++ d :: r).takeWhile p = x ∧ (x ++ d :: r).dropWhile p = d :: r := by
  induction x with
  | nil => simp [List.takeWhile, List.dropWhile, hd]
  | cons a x' ih =>
    have ha : p a = true := hx a (List.mem_cons_self a x')
    have ih' := ih (fun c hc => hx c (List.mem_cons_of_mem a hc))
    simp [List.takeWhile, List.dropWhile, ha, ih'.1, ih'.2]

theorem py_lower_fix_of_lower (c : Char) (h1 : 'a' ≤ c) (h2 : c ≤ 'z') :
    py_lower_char c = c := by
  unfold py_lower_char
  split <;> first | (exfalso; revert h1 h2; decide) | rfl

theorem py_lower_cases (c : Char) :
    py_lower_char c = c ∨ ('a' ≤ py_lower_char c ∧ py_lower_char c ≤ 'z') := by
  unfold py_lower_char
  split <;> first | (right; decide) | (left; rfl)

theorem py_lower_idem (c : Char) : py_lower_char (py_lower_char c) = py_lower_char c := by
  rcases py_lower_cases c with h | h
  · rw [h]; exact h
  · exact py_lower_fix_of_lower _ h.1 h.2

theorem isAlpha_py_lower (c : Char) (h : c.isAlpha = true) :
    (py_lower_char c).isAlpha = true := by
  unfold py_lower_char
  split <;> first | decide | exact h

theorem isSchemeChar_py_lower (c : Char) (h : isSchemeChar c = true) :
    isSchemeChar (py_lower_char c) = true := by
  unfold py_lower_char
  split <;> first | decide | exact h

theorem isSchemeChar_ne (c : Char) (h : isSchemeChar c = true) :
    c ≠ ':' ∧ c ≠ '/' ∧ c ≠ '?' ∧ c ≠ '#' := by
  refine ⟨fun he => ?_, fun he => ?_, fun he => ?_, fun he => ?_⟩ <;>
    (rw [he] at h; exact absurd h (by decide))

theorem validScheme_lower (s : List Char) (h : validScheme s = true) :
    validScheme (s.map py_lower_char) = true ∧
    (s.map py_lower_char).map py_lower_char = s.map py_lower_char := by
  constructor
  · cases s with
    | nil => simp [validScheme] at h
    | cons c cs =>
      rw [List.map_cons]
      simp only [validScheme, Bool.and_eq_true, List.all_eq_true] at h ⊢
      refine ⟨isAlpha_py_lower c h.1, ?_⟩
      intro x hx
      simp only [List.mem_cons] at hx
      rcases hx with hx | hx
      · subst hx
        exact isSchemeChar_py_lower c (h.2 c (List.mem_cons_self c cs))
      · simp only [List.mem_map] at hx
        obtain ⟨y, hy, hyx⟩ := hx
        subst hyx
        exact isSchemeChar_py_lower y (h.2 y (List.mem_cons_of_mem c hy))
  · rw [List.map_map]
    apply List.map_congr_left
    intro c _
    exact py_lower_idem c

/-- `takeWhile` of a list all of whose elements satisfy the predicate. -/
theorem takeWhile_all {α : Type} (p : α → Bool) (l : List α)
    (h : ∀ c ∈ l, p c = true) : l.takeWhile p = l ∧ l.dropWhile p = [] := by
  induction l with
  | nil => simp
  | cons a t ih =>
    have ha := h a (List.mem_cons_self a t)
    have ih' := ih (fun c hc => h c (List.mem_cons_of_mem a hc))
    simp [List.takeWhile, List.dropWhile, ha, ih'.1, ih'.2]

theorem dropWhile_shape {α : Type} (p : α → Bool) (l : List α) :
    l.dropWhile p = [] ∨ ∃ c t, l.dropWhile p = c :: t ∧ p c = false := by
  induction l with
  | nil => left; rfl
  | cons a t ih =>
    by_cases ha : p a = true
    · simpa [List.dropWhile, ha] using ih
    · have ha' : p a = false := by revert ha; cases p a <;> simp
      right
      exact ⟨a, t, by simp [List.dropWhile, ha'], ha'⟩

theorem splitLastSlash_none (p : List Char) (h : splitLastSlash p = none) : '/' ∉ p := by
  induction p with
  | nil => simp
  | cons c cs ih =>
    simp only [splitLastSlash] at h
    cases hrec : splitLastSlash cs with
    | some pr => rw [hrec] at h; cases h
    | none =>
      rw [hrec] at h
      by_cases hc : c = '/'
      · rw [if_pos hc] at h; cases h
      · rw [if_neg hc] at h
        intro hmem
        rcases List.mem_cons.mp hmem with hm | hm
        · exact hc hm.symm
        · exact ih hrec hm

theorem splitLastSlash_some (p : List Char) :
    ∀ pre seg, splitLastSlash p = some (pre, seg) →
      p = pre ++ '/' :: seg ∧ '/' ∉ seg := by
  induction p with
  | nil => intro pre seg h; simp [splitLastSlash] at h
  | cons c cs ih =>
    intro pre seg h
    simp only [splitLastSlash] at h
    cases hrec : splitLastSlash cs with
    | some pr =>
      rw [hrec] at h
      obtain ⟨hpre, hseg⟩ : c :: pr.1 = pre ∧ pr.2 = seg := by
        cases h; exact ⟨rfl, rfl⟩
      obtain ⟨h1, h2⟩ := ih pr.1 pr.2 (by rw [hrec])
      subst hpre; subst hseg
      exact ⟨by rw [List.cons_append, ← h1], h2⟩
    | none =>
      rw [hrec] at h
      by_cases hc : c = '/'
      · rw [if_pos hc] at h
        obtain ⟨hpre, hseg⟩ : ([] : List Char) = pre ∧ cs = seg := by
          cases h; exact ⟨rfl, rfl⟩
        subst hpre; subst hseg
        subst hc
        exact ⟨rfl, splitLastSlash_none cs hrec⟩
      · rw [if_neg hc] at h
        cases h

theorem splitLastSlash_append (seg : List Char) (hseg : '/' ∉ seg) :
    ∀ a : List Char, splitLastSlash (a ++ '/' :: seg) = some (a, seg) := by
  have hnone : splitLastSlash seg = none := by
    cases hs : splitLastSlash seg with
    | none => rfl
    | some pr =>
      exfalso
      obtain ⟨h1, _⟩ := splitLastSlash_some seg pr.1 pr.2 (by rw [hs])
      exact hseg (by rw [h1]; simp)
  intro a
  induction a with
  | nil =>
    simp only [List.nil_append, splitLastSlash, hnone]
    rfl
  | cons c cs ih =>
    simp only [List.cons_append, splitLastSlash, List.append_eq, ih]

theorem strip_params_no_semi (p : List Char) (h : ';' ∉ p) : strip_params p = p := by
  rw [strip_params, if_neg h]

theorem strip_params_some_pos (p pre seg : List Char) (hin : ';' ∈ p)
    (hsplit : splitLastSlash p = some (pre, seg)) (hseg : ';' ∈ seg) :
    strip_params p = pre ++ '/' :: seg.takeWhile (fun c => c ≠ ';') := by
  rw [strip_params, if_pos hin, hsplit]
  show (if ';' ∈ seg then pre ++ '/' :: seg.takeWhile (fun c => c ≠ ';') else p) =
    pre ++ '/' :: seg.takeWhile (fun c => c ≠ ';')
  rw [if_pos hseg]

theorem strip_params_some_neg (p pre seg : List Char) (hin : ';' ∈ p)
    (hsplit : splitLastSlash p = some (pre, seg)) (hseg : ';' ∉ seg) :
    strip_params p = p := by
  rw [strip_params, if_pos hin, hsplit]
  show (if ';' ∈ seg then pre ++ '/' :: seg.takeWhile (fun c => c ≠ ';') else p) = p
  rw [if_neg hseg]

theorem strip_params_none_pos (p : List Char) (hin : ';' ∈ p)
    (hnone : splitLastSlash p = none) :
    strip_params p = p.takeWhile (fun c => c ≠ ';') := by
  rw [strip_params, if_pos hin, hnone]

theorem strip_params_of_seg (p pre seg : List Char)
    (hsplit : splitLastSlash p = some (pre, seg)) (hseg : ';' ∉ seg) :
    strip_params p = p := by
  by_cases hin : ';' ∈ p
  · exact strip_params_some_neg p pre seg hin hsplit hseg
  · exact strip_params_no_semi p hin

theorem strip_params_fix_seg (p pre seg : List Char) (hfix : strip_params p = p)
    (hsplit : splitLastSlash p = some (pre, seg)) : ';' ∉ seg := by
  intro hmem
  obtain ⟨h1, _⟩ := splitLastSlash_some p pre seg hsplit
  have hin : ';' ∈ p := by rw [h1]; simp [hmem]
  rw [strip_params_some_pos p pre seg hin hsplit hmem] at hfix
  rw [h1] at hfix
  have h2 := List.append_cancel_left hfix
  injection h2 with _ h3
  have hmem' : ';' ∈ seg.takeWhile (fun c => c ≠ ';') := by rw [h3]; exact hmem
  have := List.mem_takeWhile_imp hmem'
  simp at this

theorem strip_params_fix_none (p : List Char) (hfix : strip_params p = p)
    (hnone : splitLastSlash p = none) : ';' ∉ p := by
  intro hmem
  rw [strip_params_none_pos p hmem hnone] at hfix
  have hmem' : ';' ∈ p.takeWhile (fun c => c ≠ ';') := by rw [hfix]; exact hmem
  have := List.mem_takeWhile_imp hmem'
  simp at this

theorem strip_params_idem (p : List Char) : strip_params (strip_params p) = strip_params p := by
  by_cases hin : ';' ∈ p
  · cases hsplit : splitLastSlash p with
    | some pr =>
      obtain ⟨pre, seg⟩ := pr
      obtain ⟨h1, h2⟩ := splitLastSlash_some p pre seg hsplit
      by_cases hseg : ';' ∈ seg
      · rw [strip_params_some_pos p pre seg hin hsplit hseg]
        have htw_sub := List.takeWhile_subset (l := seg) (fun c => c ≠ ';')
        have hslash : '/' ∉ seg.takeWhile (fun c => c ≠ ';') :=
          fun hm => h2 (htw_sub hm)
        have hsemi : ';' ∉ seg.takeWhile (fun c => c ≠ ';') := by
          intro hm
          have := List.mem_takeWhile_imp hm
          simp at this
        exact strip_params_of_seg _ pre _ (splitLastSlash_append _ hslash pre) hsemi
      · have hq : strip_params p = p := strip_params_of_seg p pre seg hsplit hseg
        rw [hq]
        exact hq
    | none =>
      rw [strip_params_none_pos p hin hsplit]
      apply strip_params_no_semi
      intro hm
      have := List.mem_takeWhile_imp hm
      simp at this
  · have hq : strip_params p = p := strip_params_no_semi p hin
    rw [hq]
    exact hq

theorem strip_params_subset (p : List Char) : ∀ c ∈ strip_params p, c ∈ p := by
  intro c hc
  by_cases hin : ';' ∈ p
  · cases hsplit : splitLastSlash p with
    | some pr =>
      obtain ⟨pre, seg⟩ := pr
      obtain ⟨h1, _⟩ := splitLastSlash_some p pre seg hsplit
      by_cases hseg : ';' ∈ seg
      · rw [strip_params_some_pos p pre seg hin hsplit hseg] at hc
        rw [h1]
        simp only [List.mem_append, List.mem_cons] at hc ⊢
        rcases hc with hc | hc | hc
        · exact Or.inl hc
        · exact Or.inr (Or.inl hc)
        · exact Or.inr (Or.inr (List.takeWhile_subset _ hc))
      · rwa [strip_params_some_neg p pre seg hin hsplit hseg] at hc
    | none =>
      rw [strip_params_none_pos p hin hsplit] at hc
      exact List.takeWhile_subset _ hc
  · rwa [strip_params_no_semi p hin] at hc

theorem strip_params_head (p : List Char) (hp : p.head? = some '/') :
    (strip_params p).head? = some '/' := by
  by_cases hin : ';' ∈ p
  · cases hsplit : splitLastSlash p with
    | some pr =>
      obtain ⟨pre, seg⟩ := pr
      obtain ⟨h1, _⟩ := splitLastSlash_some p pre seg hsplit
      by_cases hseg : ';' ∈ seg
      · rw [strip_params_some_pos p pre seg hin hsplit hseg]
        cases pre with
        | nil => rfl
        | cons a t =>
          rw [h1] at hp
          simpa using hp
      · rw [strip_params_some_neg p pre seg hin hsplit hseg]
        exact hp
    | none =>
      exfalso
      have hns := splitLastSlash_none p hsplit
      cases p with
      | nil => simp at hp
      | cons a t =>
        simp only [List.head?] at hp
        cases hp
        exact hns (List.mem_cons_self _ _)
  · rw [strip_params_no_semi p hin]
    exact hp

theorem strip_params_cons_slash (p : List Char) (hfix : strip_params p = p) :
    strip_params ('/' :: p) = '/' :: p := by
  cases hsplit : splitLastSlash p with
  | some pr =>
    obtain ⟨pre, seg⟩ := pr
    obtain ⟨h1, h2⟩ := splitLastSlash_some p pre seg hsplit
    have hseg := strip_params_fix_seg p pre seg hfix hsplit
    have hsplit2 : splitLastSlash ('/' :: p) = some ('/' :: pre, seg) := by
      rw [h1]
      exact splitLastSlash_append seg h2 ('/' :: pre)
    exact strip_params_of_seg _ _ _ hsplit2 hseg
  | none =>
    have h2 := splitLastSlash_none p hsplit
    have hsemi := strip_params_fix_none p hfix hsplit
    have hsplit2 : splitLastSlash ('/' :: p) = some ([], p) :=
      splitLastSlash_append p h2 []
    exact strip_params_of_seg _ _ _ hsplit2 hsemi

theorem split_scheme_eq (l : List Char) :
    split_scheme l =
      if (l.takeWhile (fun c => c ≠ ':')).length < l.length ∧
          validScheme (l.takeWhile (fun c => c ≠ ':')) = true then
        ((l.takeWhile (fun c => c ≠ ':')).map py_lower_char,
          l.drop ((l.takeWhile (fun c => c ≠ ':')).length + 1))
      else ([], l) := rfl

theorem split_scheme_concat (s r : List Char) (h : validScheme s = true) :
    split_scheme (s ++ ':' :: r) = (s.map py_lower_char, r) := by
  have hall : ∀ c ∈ s, isSchemeChar c = true := by
    cases s with
    | nil => simp
    | cons c cs =>
      simp only [validScheme, Bool.and_eq_true, List.all_eq_true] at h
      exact h.2
  have htw := takeWhile_append_all (fun c => decide (c ≠ ':')) s ':' r
    (fun c hc => by
      simp only [decide_eq_true_eq]
      exact (isSchemeChar_ne c (hall c hc)).1)
    (by simp)
  rw [split_scheme_eq]
  rw [show (s ++ ':' :: r).takeWhile (fun c => c ≠ ':') = s from htw.1]
  rw [if_pos ⟨by simp, h⟩]
  rw [show (s ++ ':' :: r).drop (s.length + 1) = r from by
    rw [show s ++ ':' :: r = (s ++ [':']) ++ r from by simp]
    exact List.drop_left' (by simp)]

theorem split_scheme_nonalpha (l : List Char)
    (h : l = [] ∨ ∃ c t, l = c :: t ∧ c.isAlpha = false) : split_scheme l = ([], l) := by
  rcases h with h | ⟨c, t, hl, hc⟩
  · subst h; rfl
  · subst hl
    rw [split_scheme_eq]
    rw [if_neg ?_]
    rintro ⟨_, h2⟩
    by_cases hcc : c = ':'
    · rw [show (c :: t).takeWhile (fun c => c ≠ ':') = [] from by
        simp [List.takeWhile_cons, hcc]] at h2
      simp [validScheme] at h2
    · rw [show (c :: t).takeWhile (fun c => c ≠ ':') =
          c :: t.takeWhile (fun c => c ≠ ':') from by
        simp [List.takeWhile_cons, hcc]] at h2
      simp only [validScheme, Bool.and_eq_true] at h2
      rw [hc] at h2
      exact Bool.false_ne_true h2.1

theorem takeWhile_of_isPre {q l : List Char} (p : Char → Bool) (hpre : q <+: l) :
    q.takeWhile p = q ∨ q.takeWhile p = l.takeWhile p := by
  induction q generalizing l with
  | nil => left; rfl
  | cons c q' ih =>
    obtain ⟨t, ht⟩ := hpre
    subst ht
    by_cases hp : p c = true
    · rcases ih (l := q' ++ t) ⟨t, rfl⟩ with h | h
      · left; simp [List.takeWhile_cons, hp, h]
      · right; simp [List.takeWhile_cons, hp, h]
    · have hp' : p c = false := by revert hp; cases p c <;> simp
      right
      simp [List.takeWhile_cons, hp']

theorem mem_colon_of_tw_ne (q : List Char)
    (h : q.takeWhile (fun c => c ≠ ':') ≠ q) : ':' ∈ q := by
  induction q with
  | nil => simp [List.takeWhile] at h
  | cons c t ih =>
    by_cases hc : c = ':'
    · subst hc; exact List.mem_cons_self _ _
    · rw [show (c :: t).takeWhile (fun c => c ≠ ':') =
          c :: t.takeWhile (fun c => c ≠ ':') from by
        simp [List.takeWhile_cons, hc]] at h
      have : t.takeWhile (fun c => c ≠ ':') ≠ t := fun he => h (by rw [he])
      exact List.mem_cons_of_mem c (ih this)

theorem tw_colon_length_lt (l : List Char) (h : ':' ∈ l) :
    (l.takeWhile (fun c => c ≠ ':')).length < l.length := by
  have hsub := List.takeWhile_sublist (l := l) (fun c => decide (c ≠ ':'))
  rcases Nat.lt_or_ge (l.takeWhile (fun c => c ≠ ':')).length l.length with hlt | hge
  · exact hlt
  · exfalso
    have heq : l.takeWhile (fun c => c ≠ ':') = l :=
      hsub.eq_of_length (Nat.le_antisymm hsub.length_le hge)
    have hh : ':' ∈ l.takeWhile (fun c => c ≠ ':') := by rw [heq]; exact h
    have := List.mem_takeWhile_imp hh
    simp at this

theorem split_scheme_fail_isPre (l q : List Char) (hl : split_scheme l = ([], l))
    (hq : q <+: l) : split_scheme q = ([], q) := by
  rw [split_scheme_eq]
  rw [if_neg ?_]
  rintro ⟨h1, h2⟩
  have hne : q.takeWhile (fun c => c ≠ ':') ≠ q := by
    intro he; rw [he] at h1; omega
  have heq : q.takeWhile (fun c => c ≠ ':') = l.takeWhile (fun c => c ≠ ':') :=
    (takeWhile_of_isPre _ hq).resolve_left hne
  have hcolq : ':' ∈ q := mem_colon_of_tw_ne q hne
  have hcoll : ':' ∈ l := by
    obtain ⟨t, ht⟩ := hq
    rw [← ht]
    exact List.mem_append_left t hcolq
  have hcl : ¬ ((l.takeWhile (fun c => c ≠ ':')).length < l.length ∧
      validScheme (l.takeWhile (fun c => c ≠ ':')) = true) := by
    rintro hcc
    rw [split_scheme_eq, if_pos hcc] at hl
    have hfst : (l.takeWhile (fun c => c ≠ ':')).map py_lower_char = [] :=
      congrArg Prod.fst hl
    have htwnil : l.takeWhile (fun c => c ≠ ':') = [] := List.map_eq_nil.mp hfst
    rw [htwnil] at hcc
    simp [validScheme] at hcc
  exact hcl ⟨tw_colon_length_lt l hcoll, by rw [← heq]; exact h2⟩

theorem split_netloc_no_slash (l : List Char) (h : l.take 2 ≠ ['/', '/']) :
    split_netloc l = ([], l) := by
  rw [split_netloc, if_neg h]

theorem split_netloc_concat (n p : List Char)
    (hn : ∀ c ∈ n, netloc_stop c = false)
    (hp : p = [] ∨ p.head? = some '/') :
    split_netloc ('/' :: '/' :: (n ++ p)) = (n, p) := by
  rw [split_netloc, if_pos (by simp)]
  simp only [List.drop_succ_cons, List.drop_zero]
  rcases hp with hp | hp
  · subst hp
    have := takeWhile_all (fun c => !netloc_stop c) n
      (fun c hc => by simp [hn c hc])
    simp [this.1, this.2]
  · cases p with
    | nil => simp at hp
    | cons d p' =>
      have hd : d = '/' := by simpa [List.head?] using hp
      subst hd
      have := takeWhile_append_all (fun c => !netloc_stop c) n '/' p'
        (fun c hc => by simp [hn c hc]) (by simp [netloc_stop])
      rw [this.1, this.2]

theorem path_part_mem (l : List Char) : ∀ c ∈ path_part l, c ≠ '#' ∧ c ≠ '?' := by
  intro c hc
  have := List.mem_takeWhile_imp hc
  simp only [Bool.and_eq_true, decide_eq_true_eq] at this
  exact this

theorem path_part_all (l : List Char) (h : ∀ c ∈ l, c ≠ '#' ∧ c ≠ '?') :
    path_part l = l :=
  (takeWhile_all _ l (fun c hc => by
    obtain ⟨h1, h2⟩ := h c hc
    simp [h1, h2])).1

theorem path_part_isPre (l : List Char) : path_part l <+: l :=
  ⟨l.dropWhile (fun c => c ≠ '#' && c ≠ '?'), List.takeWhile_append_dropWhile _ l⟩

theorem path_part_head (l : List Char) (c : Char) (hl : l.head? = some c)
    (hc1 : c ≠ '#') (hc2 : c ≠ '?') : (path_part l).head? = some c := by
  cases l with
  | nil => simp at hl
  | cons a t =>
    have ha : a = c := by simpa [List.head?] using hl
    subst ha
    rw [show path_part (a :: t) = a :: t.takeWhile (fun c => c ≠ '#' && c ≠ '?') from by
      simp [path_part, List.takeWhile_cons, hc1, hc2]]
    rfl

theorem strip_params_isPre (p : List Char) : strip_params p <+: p := by
  by_cases hin : ';' ∈ p
  · cases hsplit : splitLastSlash p with
    | some pr =>
      obtain ⟨pre, seg⟩ := pr
      obtain ⟨h1, _⟩ := splitLastSlash_some p pre seg hsplit
      by_cases hseg : ';' ∈ seg
      · rw [strip_params_some_pos p pre seg hin hsplit hseg, h1]
        exact ⟨seg.dropWhile (fun c => c ≠ ';'), by
          simp [List.append_assoc, List.takeWhile_append_dropWhile]⟩
      · rw [strip_params_some_neg p pre seg hin hsplit hseg]
    | none =>
      rw [strip_params_none_pos p hin hsplit]
      exact ⟨p.dropWhile (fun c => c ≠ ';'), List.takeWhile_append_dropWhile _ p⟩
  · rw [strip_params_no_semi p hin]

theorem force_slash_shape (p : List Char) :
    force_slash p = [] ∨ (force_slash p).head? = some '/' := by
  cases p with
  | nil => left; rfl
  | cons c cs =>
    right
    by_cases hc : c = '/'
    · rw [force_slash, if_pos hc, hc]
      rfl
    · rw [force_slash, if_neg hc]
      rfl

theorem force_slash_mem (p : List Char) (c : Char) (hc : c ∈ force_slash p) :
    c = '/' ∨ c ∈ p := by
  cases p with
  | nil => simp [force_slash] at hc
  | cons a cs =>
    by_cases ha : a = '/'
    · rw [force_slash, if_pos ha] at hc
      exact Or.inr hc
    · rw [force_slash, if_neg ha] at hc
      rcases List.mem_cons.mp hc with h | h
      · exact Or.inl h
      · exact Or.inr h

theorem force_slash_of_shape (p : List Char) (h : p = [] ∨ p.head? = some '/') :
    force_slash p = p := by
  rcases h with h | h
  · subst h; rfl
  · cases p with
    | nil => simp at h
    | cons c cs =>
      have hc : c = '/' := by simpa [List.head?] using h
      rw [force_slash, if_pos hc]

theorem force_slash_idem (p : List Char) :
    force_slash (force_slash p) = force_slash p :=
  force_slash_of_shape _ (force_slash_shape p)

theorem force_slash_strip (p : List Char) (hfix : strip_params p = p) :
    strip_params (force_slash p) = force_slash p := by
  cases p with
  | nil => rfl
  | cons c cs =>
    by_cases hc : c = '/'
    · rw [force_slash, if_pos hc]
      exact hfix
    · rw [force_slash, if_neg hc]
      exact strip_params_cons_slash (c :: cs) hfix

theorem force_slash_take2 (p : List Char) (h : p.take 2 ≠ ['/', '/']) :
    (force_slash p).take 2 ≠ ['/', '/'] := by
  cases p with
  | nil => simp [force_slash]
  | cons c cs =>
    by_cases hc : c = '/'
    · rw [force_slash, if_pos hc]
      exact h
    · rw [force_slash, if_neg hc]
      cases cs with
      | nil => simp [List.take, hc]
      | cons d ds => simp [List.take, hc]

theorem force_slash_path_part (p : List Char) (hpc : ∀ c ∈ p, c ≠ '#' ∧ c ≠ '?') :
    path_part (force_slash p) = force_slash p := by
  apply path_part_all
  intro c hc
  rcases force_slash_mem p c hc with h | h
  · subst h; exact ⟨by decide, by decide⟩
  · exact hpc c h

theorem urlparse3_eq (l : List Char) :
    urlparse3 l = ((split_scheme l).1, (split_netloc (split_scheme l).2).1,
      strip_params (path_part (split_netloc (split_scheme l).2).2)) := rfl

theorem urlunparse3_eq (scheme netloc path : List Char) :
    urlunparse3 scheme netloc path =
      if scheme ≠ [] then
        scheme ++ ':' ::
          (if netloc ≠ [] ∨ (scheme ≠ [] ∧ scheme ∈ uses_netloc ∧ path.take 2 ≠ ['/', '/']) then
            '/' :: '/' :: (netloc ++ force_slash path)
          else path)
      else
        if netloc ≠ [] ∨ (scheme ≠ [] ∧ scheme ∈ uses_netloc ∧ path.take 2 ≠ ['/', '/']) then
          '/' :: '/' :: (netloc ++ force_slash path)
        else path := rfl

theorem cleanL_eq (l : List Char) :
    cleanL l = urlunparse3 (urlparse3 l).1 (urlparse3 l).2.1 (urlparse3 l).2.2 := rfl

theorem split_scheme_inv (l : List Char) :
    (split_scheme l).1 = [] ∨
      (validScheme (split_scheme l).1 = true ∧
        (split_scheme l).1.map py_lower_char = (split_scheme l).1) := by
  rw [split_scheme_eq]
  by_cases h : (l.takeWhile (fun c => c ≠ ':')).length < l.length ∧
      validScheme (l.takeWhile (fun c => c ≠ ':')) = true
  · rw [if_pos h]
    right
    exact validScheme_lower _ h.2
  · rw [if_neg h]
    left
    rfl

theorem split_scheme_fst_nil (l : List Char) (h : (split_scheme l).1 = []) :
    split_scheme l = ([], l) := by
  rw [split_scheme_eq] at h ⊢
  by_cases hc : (l.takeWhile (fun c => c ≠ ':')).length < l.length ∧
      validScheme (l.takeWhile (fun c => c ≠ ':')) = true
  · exfalso
    rw [if_pos hc] at h
    have htwnil : l.takeWhile (fun c => c ≠ ':') = [] := List.map_eq_nil.mp h
    rw [htwnil] at hc
    simp [validScheme] at hc
  · rw [if_neg hc]

theorem split_netloc_inv (r : List Char) :
    ∀ c ∈ (split_netloc r).1, netloc_stop c = false := by
  rw [split_netloc]
  by_cases h : r.take 2 = ['/', '/']
  · rw [if_pos h]
    intro c hc
    have := List.mem_takeWhile_imp hc
    revert this
    cases netloc_stop c <;> simp
  · rw [if_neg h]
    intro c hc
    simp at hc

theorem split_netloc_cases (r : List Char) :
    split_netloc r = ([], r) ∨
      ((split_netloc r).2 = [] ∨
        ∃ c t, (split_netloc r).2 = c :: t ∧ netloc_stop c = true) := by
  rw [split_netloc]
  by_cases h : r.take 2 = ['/', '/']
  · rw [if_pos h]
    right
    rcases dropWhile_shape (fun c => !netloc_stop c) (r.drop 2) with h2 | ⟨c, t, h2, h3⟩
    · left; exact h2
    · right
      refine ⟨c, t, h2, ?_⟩
      revert h3
      cases netloc_stop c <;> simp
  · rw [if_neg h]
    left
    rfl

theorem netloc_stop_chars (c : Char) (h : netloc_stop c = true) :
    c = '/' ∨ c = '?' ∨ c = '#' := by
  simpa [netloc_stop, or_assoc] using h

/-- What the parser guarantees about its three components. -/
theorem urlparse3_spec (l : List Char) :
    ((urlparse3 l).1 = [] ∨
      (validScheme (urlparse3 l).1 = true ∧
        (urlparse3 l).1.map py_lower_char = (urlparse3 l).1)) ∧
    (∀ c ∈ (urlparse3 l).2.1, netloc_stop c = false) ∧
    (∀ c ∈ (urlparse3 l).2.2, c ≠ '#' ∧ c ≠ '?') ∧
    strip_params (urlparse3 l).2.2 = (urlparse3 l).2.2 ∧
    ((urlparse3 l).2.1 ≠ [] →
      ((urlparse3 l).2.2 = [] ∨ (urlparse3 l).2.2.head? = some '/')) ∧
    ((urlparse3 l).1 = [] → (urlparse3 l).2.1 = [] →
      split_scheme (urlparse3 l).2.2 = ([], (urlparse3 l).2.2)) := by
  rw [urlparse3_eq]
  refine ⟨split_scheme_inv l, split_netloc_inv (split_scheme l).2, ?_, ?_, ?_, ?_⟩
  · intro c hc
    exact path_part_mem _ c (strip_params_subset _ c hc)
  · exact strip_params_idem _
  · intro hn
    rcases split_netloc_cases (split_scheme l).2 with hcase | hcase
    · exfalso
      apply hn
      rw [hcase]
    · rcases hcase with h2 | ⟨c, t, h2, hstop⟩
      · left
        rw [h2]
        rfl
      · rcases netloc_stop_chars c hstop with hc | hc | hc
        · right
          subst hc
          rw [h2]
          exact strip_params_head _ (path_part_head ('/' :: t) '/' rfl (by decide) (by decide))
        · left
          subst hc
          rw [h2]
          rfl
        · left
          subst hc
          rw [h2]
          rfl
  · intro hs hn
    have hssl : split_scheme l = ([], l) := split_scheme_fst_nil l hs
    have hrest : (split_scheme l).2 = l := by rw [hssl]
    rw [hrest]
    rcases split_netloc_cases l with hcase | hcase
    · have h2 : (split_netloc l).2 = l := by rw [hcase]
      rw [h2]
      exact split_scheme_fail_isPre l _ hssl
        ((strip_params_isPre _).trans (path_part_isPre _))
    · rcases hcase with h2 | ⟨c, t, h2, hstop⟩
      · rw [h2]
        rfl
      · rcases netloc_stop_chars c hstop with hc | hc | hc
        · subst hc
          rw [h2]
          have hh := strip_params_head _ (path_part_head ('/' :: t) '/' rfl (by decide) (by decide))
          cases hp : strip_params (path_part ('/' :: t)) with
          | nil => rfl
          | cons d ds =>
            have hd : d = '/' := by
              rw [hp] at hh
              simpa [List.head?] using hh
            subst hd
            exact split_scheme_nonalpha _ (Or.inr ⟨'/', ds, rfl, by decide⟩)
        · subst hc
          rw [h2]
          rfl
        · subst hc
          rw [h2]
          rfl

/-- Re-cleaning a cleaned URL is the identity, under the parser's
invariants and provided the path does not begin with `//`. -/
theorem cleanL_fix_out (s n p : List Char)
    (hs : s = [] ∨ (validScheme s = true ∧ s.map py_lower_char = s))
    (hn : ∀ c ∈ n, netloc_stop c = false)
    (hpc : ∀ c ∈ p, c ≠ '#' ∧ c ≠ '?')
    (hfix : strip_params p = p)
    (hfail : s = [] → n = [] → split_scheme p = ([], p))
    (hp2 : p.take 2 ≠ ['/', '/']) :
    cleanL (urlunparse3 s n p) = urlunparse3 s n p := by
  by_cases hcond : n ≠ [] ∨ (s ≠ [] ∧ s ∈ uses_netloc ∧ p.take 2 ≠ ['/', '/'])
  · have hout : urlunparse3 s n p =
        if s ≠ [] then s ++ ':' :: ('/' :: '/' :: (n ++ force_slash p))
        else '/' :: '/' :: (n ++ force_slash p) := by
      rw [urlunparse3_eq, if_pos hcond]
    have hscheme : split_scheme (urlunparse3 s n p) =
        (s, '/' :: '/' :: (n ++ force_slash p)) := by
      rw [hout]
      by_cases hs0 : s = []
      · rw [if_neg (by simp [hs0])]
        rw [split_scheme_nonalpha _ (Or.inr ⟨'/', '/' :: (n ++ force_slash p), rfl, by decide⟩)]
        rw [hs0]
      · rcases hs with hs' | ⟨hv, hmap⟩
        · exact absurd hs' hs0
        · rw [if_pos hs0, split_scheme_concat s _ hv, hmap]
    have hnet : split_netloc ('/' :: '/' :: (n ++ force_slash p)) = (n, force_slash p) :=
      split_netloc_concat n (force_slash p) hn (force_slash_shape p)
    have hparse : urlparse3 (urlunparse3 s n p) = (s, n, force_slash p) := by
      rw [urlparse3_eq, hscheme]
      dsimp only
      rw [hnet]
      dsimp only
      rw [force_slash_path_part p hpc, force_slash_strip p hfix]
    rw [cleanL_eq, hparse]
    show urlunparse3 s n (force_slash p) = urlunparse3 s n p
    have hcond' : n ≠ [] ∨ (s ≠ [] ∧ s ∈ uses_netloc ∧ (force_slash p).take 2 ≠ ['/', '/']) := by
      rcases hcond with h | ⟨h1, h2, h3⟩
      · exact Or.inl h
      · exact Or.inr ⟨h1, h2, force_slash_take2 p h3⟩
    rw [urlunparse3_eq, if_pos hcond', urlunparse3_eq, if_pos hcond, force_slash_idem p]
  · have hn0 : n = [] := not_not.mp (not_or.mp hcond).1
    have hsu : ¬ (s ≠ [] ∧ s ∈ uses_netloc) :=
      fun h => (not_or.mp hcond).2 ⟨h.1, h.2, hp2⟩
    have hout : urlunparse3 s n p = if s ≠ [] then s ++ ':' :: p else p := by
      rw [urlunparse3_eq, if_neg hcond]
    by_cases hs0 : s = []
    · have hout2 : urlunparse3 s n p = p := by rw [hout, if_neg (by simp [hs0])]
      rw [hout2, cleanL_eq]
      rw [urlparse3_eq, hfail hs0 hn0]
      dsimp only
      rw [split_netloc_no_slash p hp2]
      dsimp only
      rw [path_part_all p hpc, hfix]
      rw [urlunparse3_eq, if_neg (show ¬ (([] : List Char) ≠ []) from by simp)]
      rw [if_neg (show ¬ (([] : List Char) ≠ [] ∨ (([] : List Char) ≠ [] ∧
          ([] : List Char) ∈ uses_netloc ∧ p.take 2 ≠ ['/', '/'])) from by simp)]
    · rcases hs with hs' | ⟨hv, hmap⟩
      · exact absurd hs' hs0
      have hout2 : urlunparse3 s n p = s ++ ':' :: p := by rw [hout, if_pos hs0]
      rw [hout2, cleanL_eq]
      rw [urlparse3_eq, show split_scheme (s ++ ':' :: p) = (s, p) from by
        rw [split_scheme_concat s p hv, hmap]]
      dsimp only
      rw [split_netloc_no_slash p hp2]
      dsimp only
      rw [path_part_all p hpc, hfix]
      have hsu2 : s ∉ uses_netloc := fun hmem => hsu ⟨hs0, hmem⟩
      rw [urlunparse3_eq, if_pos hs0,
        if_neg (show ¬ (([] : List Char) ≠ [] ∨ (s ≠ [] ∧ s ∈ uses_netloc ∧
            p.take 2 ≠ ['/', '/'])) from
          not_or.mpr ⟨by simp, fun h => hsu2 h.2.1⟩)]

theorem cleanL_idem (l : List Char) (hp : (urlparse3 l).2.2.take 2 ≠ ['/', '/']) :
    cleanL (cleanL l) = cleanL l := by
  obtain ⟨h1, h2, h3, h4, _, h6⟩ := urlparse3_spec l
  rw [cleanL_eq l]
  exact cleanL_fix_out _ _ _ h1 h2 h3 h4 h6 hp

theorem urlunparse3_mem (s n p : List Char) (c : Char) (hc : c ∈ urlunparse3 s n p) :
    c = ':' ∨ c = '/' ∨ c ∈ s ∨ c ∈ n ∨ c ∈ p := by
  rw [urlunparse3_eq] at hc
  have hinner : c ∈ ('/' :: '/' :: (n ++ force_slash p)) →
      c = '/' ∨ c ∈ n ∨ c ∈ p := by
    intro hcc
    rcases List.mem_cons.mp hcc with h | hcc2
    · exact Or.inl h
    rcases List.mem_cons.mp hcc2 with h | hcc3
    · exact Or.inl h
    rcases List.mem_append.mp hcc3 with h | h
    · exact Or.inr (Or.inl h)
    · rcases force_slash_mem p c h with h | h
      · exact Or.inl h
      · exact Or.inr (Or.inr h)
  by_cases hcond : n ≠ [] ∨ (s ≠ [] ∧ s ∈ uses_netloc ∧ p.take 2 ≠ ['/', '/']) <;>
    by_cases hs0 : s ≠ []
  · rw [if_pos hs0, if_pos hcond] at hc
    rcases List.mem_append.mp hc with h | h
    · exact Or.inr (Or.inr (Or.inl h))
    · rcases List.mem_cons.mp h with h | h
      · exact Or.inl h
      · rcases hinner h with h | h | h
        · exact Or.inr (Or.inl h)
        · exact Or.inr (Or.inr (Or.inr (Or.inl h)))
        · exact Or.inr (Or.inr (Or.inr (Or.inr h)))
  · rw [if_neg hs0, if_pos hcond] at hc
    rcases hinner hc with h | h | h
    · exact Or.inr (Or.inl h)
    · exact Or.inr (Or.inr (Or.inr (Or.inl h)))
    · exact Or.inr (Or.inr (Or.inr (Or.inr h)))
  · rw [if_pos hs0, if_neg hcond] at hc
    rcases List.mem_append.mp hc with h | h
    · exact Or.inr (Or.inr (Or.inl h))
    · rcases List.mem_cons.mp h with h | h
      · exact Or.inl h
      · exact Or.inr (Or.inr (Or.inr (Or.inr h)))
  · rw [if_neg hs0, if_neg hcond] at hc
    exact Or.inr (Or.inr (Or.inr (Or.inr hc)))

/-- No query or fragment characters survive cleaning. -/
theorem cleanL_no_qf (l : List Char) : '?' ∉ cleanL l ∧ '#' ∉ cleanL l := by
  obtain ⟨h1, h2, h3, _, _, _⟩ := urlparse3_spec l
  rw [cleanL_eq l]
  have hall : ∀ x ∈ (urlparse3 l).1, isSchemeChar x = true := by
    rcases h1 with h1 | ⟨hv, _⟩
    · rw [h1]; simp
    · cases hq : (urlparse3 l).1 with
      | nil => simp
      | cons a t =>
        rw [hq] at hv
        simp only [validScheme, Bool.and_eq_true, List.all_eq_true] at hv
        exact hv.2
  constructor <;> intro hmem <;>
    rcases urlunparse3_mem _ _ _ _ hmem with hc | hc | hc | hc | hc
  · exact absurd hc (by decide)
  · exact absurd hc (by decide)
  · exact (isSchemeChar_ne _ (hall _ hc)).2.2.1 rfl
  · have h := h2 _ hc
    simp [netloc_stop] at h
  · exact (h3 _ hc).2 rfl
  · exact absurd hc (by decide)
  · exact absurd hc (by decide)
  · exact (isSchemeChar_ne _ (hall _ hc)).2.2.2 rfl
  · have h := h2 _ hc
    simp [netloc_stop] at h
  · exact (h3 _ hc).1 rfl

/-- C4: FALSE as stated.  Percent-decoding is not idempotent, so neither is
the decode-then-strip cleaning: `%2525` decodes to `%25` on the first pass
and to `%` on the second. -/
theorem C4_counterexample :
    clean_url_full (clean_url_full "http://h/a%2525") ≠ clean_url_full "http://h/a%2525" := by
  decide

/-- C4 (amended): the cleaned URL contains no query string and no fragment;
and the strip stage alone (`clean_stream_url`, without the percent-decode)
is idempotent on every URL whose parsed path does not begin with `//` —
which covers every well-formed stream URL.  (The full decode-then-strip
cleaning is not idempotent: see the counterexample.) -/
theorem C4_theorem :
    (∀ u : String, '?' ∉ (clean_url_full u).data ∧ '#' ∉ (clean_url_full u).data) ∧
    (∀ u : String, (urlparse3 u.data).2.2.take 2 ≠ ['/', '/'] →
      clean_stream_url (clean_stream_url u) = clean_stream_url u) := by
  constructor
  · intro u
    exact cleanL_no_qf (unquoteL u.data)
  · intro u hp
    show String.mk (cleanL (String.mk (cleanL u.data)).data) = String.mk (cleanL u.data)
    exact congrArg String.mk (cleanL_idem u.data hp)

theorem C4_theorem_witness :
    clean_stream_url (clean_stream_url "http://example.com/stream/video.m3u8?token=abc#f") =
      clean_stream_url "http://example.com/stream/video.m3u8?token=abc#f" :=
  C4_theorem.2 "http://example.com/stream/video.m3u8?token=abc#f" (by decide)

/-! ## Payload repair rewrites (C6) -/

/-- The characters of the pattern, for rewriting. -/
theorem undefined_data_eq :
    "undefined".data = ['u', 'n', 'd', 'e', 'f', 'i', 'n', 'e', 'd'] := rfl

theorem null_data_eq : "null".data = ['n', 'u', 'l', 'l'] := rfl

/-- If a tail `drop i` of the pattern (0 ≤ i < 9) is a prefix of the
replacement's output on `s`, it is already a prefix of `s`: the replacement
inserts only `null`, whose characters cannot continue any proper pattern
tail. -/
theorem py_replace_tail_pre (n : Nat) :
    ∀ s : List Char, s.length ≤ n → ∀ i : Nat, i < 9 →
      ("undefined".data.drop i <+: py_replace "undefined".data "null".data s) →
      "undefined".data.drop i <+: s := by
  induction n with
  | zero =>
    intro s hs i hi hp
    have hse : s = [] := List.eq_nil_of_length_eq_zero (Nat.le_zero.mp hs)
    subst hse
    rw [show py_replace "undefined".data "null".data [] = [] from by simp [py_replace]] at hp
    obtain ⟨tt, htt⟩ := hp
    have hlen := congrArg List.length htt
    simp [undefined_data_eq] at hlen
    omega
  | succ m ih =>
    intro s hs i hi hp
    cases s with
    | nil =>
      rw [show py_replace "undefined".data "null".data [] = [] from by simp [py_replace]] at hp
      obtain ⟨tt, htt⟩ := hp
      have hlen := congrArg List.length htt
      simp [undefined_data_eq] at hlen
      omega
    | cons c t =>
      by_cases hcond : "undefined".data ≠ [] ∧ "undefined".data <+: (c :: t)
      · rw [show py_replace "undefined".data "null".data (c :: t) =
              "null".data ++ py_replace "undefined".data "null".data ((c :: t).drop 9) from by
            rw [py_replace]; rw [dif_pos hcond] <;> rfl] at hp
        exfalso
        obtain ⟨tt, htt⟩ := hp
        rw [undefined_data_eq, null_data_eq] at htt
        interval_cases i <;> simp_all
      · rw [show py_replace "undefined".data "null".data (c :: t) =
              c :: py_replace "undefined".data "null".data t from by
            rw [py_replace]; rw [dif_neg hcond] <;> rfl] at hp
        obtain ⟨tt, htt⟩ := hp
        rw [undefined_data_eq] at htt ⊢
        have ht' : t.length ≤ m := by
          have := hs; simp at this; omega
        interval_cases i <;>
          simp only [List.drop, List.cons_append, List.cons.injEq] at htt <;>
          obtain ⟨hc, hrest⟩ := htt <;>
          subst hc
        · have hnext := ih t ht' 1 (by omega) ⟨tt, by
            simp only [undefined_data_eq, List.drop]
            exact hrest⟩
          rw [undefined_data_eq] at hnext
          obtain ⟨t2, ht2⟩ := hnext
          refine ⟨t2, ?_⟩
          simp only [List.drop] at ht2 ⊢
          simp [← ht2]
        · have hnext := ih t ht' 2 (by omega) ⟨tt, by
            simp only [undefined_data_eq, List.drop]
            exact hrest⟩
          rw [undefined_data_eq] at hnext
          obtain ⟨t2, ht2⟩ := hnext
          refine ⟨t2, ?_⟩
          simp only [List.drop] at ht2 ⊢
          simp [← ht2]
        · have hnext := ih t ht' 3 (by omega) ⟨tt, by
            simp only [undefined_data_eq, List.drop]
            exact hrest⟩
          rw [undefined_data_eq] at hnext
          obtain ⟨t2, ht2⟩ := hnext
          refine ⟨t2, ?_⟩
          simp only [List.drop] at ht2 ⊢
          simp [← ht2]
        · have hnext := ih t ht' 4 (by omega) ⟨tt, by
            simp only [undefined_data_eq, List.drop]
            exact hrest⟩
          rw [undefined_data_eq] at hnext
          obtain ⟨t2, ht2⟩ := hnext
          refine ⟨t2, ?_⟩
          simp only [List.drop] at ht2 ⊢
          simp [← ht2]
        · have hnext := ih t ht' 5 (by omega) ⟨tt, by
            simp only [undefined_data_eq, List.drop]
            exact hrest⟩
          rw [undefined_data_eq] at hnext
          obtain ⟨t2, ht2⟩ := hnext
          refine ⟨t2, ?_⟩
          simp only [List.drop] at ht2 ⊢
          simp [← ht2]
        · have hnext := ih t ht' 6 (by omega) ⟨tt, by
            simp only [undefined_data_eq, List.drop]
            exact hrest⟩
          rw [undefined_data_eq] at hnext
          obtain ⟨t2, ht2⟩ := hnext
          refine ⟨t2, ?_⟩
          simp only [List.drop] at ht2 ⊢
          simp [← ht2]
        · have hnext := ih t ht' 7 (by omega) ⟨tt, by
            simp only [undefined_data_eq, List.drop]
            exact hrest⟩
          rw [undefined_data_eq] at hnext
          obtain ⟨t2, ht2⟩ := hnext
          refine ⟨t2, ?_⟩
          simp only [List.drop] at ht2 ⊢
          simp [← ht2]
        · have hnext := ih t ht' 8 (by omega) ⟨tt, by
            simp only [undefined_data_eq, List.drop]
            exact hrest⟩
          rw [undefined_data_eq] at hnext
          obtain ⟨t2, ht2⟩ := hnext
          refine ⟨t2, ?_⟩
          simp only [List.drop] at ht2 ⊢
          simp [← ht2]
        · exact ⟨t, by simp⟩

/-- No occurrence of `undefined` survives the replacement. -/
theorem py_replace_no_undefined (n : Nat) :
    ∀ s : List Char, s.length ≤ n →
      ¬ ("undefined".data <:+: py_replace "undefined".data "null".data s) := by
  induction n with
  | zero =>
    intro s hs hinf
    have hse : s = [] := List.eq_nil_of_length_eq_zero (Nat.le_zero.mp hs)
    subst hse
    rw [show py_replace "undefined".data "null".data [] = [] from by simp [py_replace]] at hinf
    obtain ⟨u, v, huv⟩ := hinf
    have hlen := congrArg List.length huv
    simp [undefined_data_eq] at hlen
  | succ m ih =>
    intro s hs hinf
    cases s with
    | nil =>
      rw [show py_replace "undefined".data "null".data [] = [] from by simp [py_replace]] at hinf
      obtain ⟨u, v, huv⟩ := hinf
      have hlen := congrArg List.length huv
      simp [undefined_data_eq] at hlen
    | cons c t =>
      by_cases hcond : "undefined".data ≠ [] ∧ "undefined".data <+: (c :: t)
      · rw [show py_replace "undefined".data "null".data (c :: t) =
              "null".data ++ py_replace "undefined".data "null".data ((c :: t).drop 9) from by
            rw [py_replace]; rw [dif_pos hcond] <;> rfl] at hinf
        obtain ⟨u, v, huv⟩ := hinf
        have hd9 : ((c :: t).drop 9).length ≤ m := by
          simp at hs ⊢; omega
        match u with
        | [] => rw [undefined_data_eq, null_data_eq] at huv; simp_all
        | [a] => rw [undefined_data_eq, null_data_eq] at huv; simp_all
        | [a, b] => rw [undefined_data_eq, null_data_eq] at huv; simp_all
        | [a, b, d] => rw [undefined_data_eq, null_data_eq] at huv; simp_all
        | a :: b :: d :: e :: u' =>
          rw [null_data_eq] at huv
          simp only [List.cons_append, List.cons.injEq] at huv
          exact ih _ hd9 ⟨u', v, huv.2.2.2.2⟩
      · rw [show py_replace "undefined".data "null".data (c :: t) =
              c :: py_replace "undefined".data "null".data t from by
            rw [py_replace]; rw [dif_neg hcond] <;> rfl] at hinf
        obtain ⟨u, v, huv⟩ := hinf
        have ht' : t.length ≤ m := by simp at hs; omega
        match u with
        | [] =>
          simp only [List.nil_append] at huv
          have hpre : "undefined".data <+: py_replace "undefined".data "null".data (c :: t) := by
            rw [show py_replace "undefined".data "null".data (c :: t) =
                  c :: py_replace "undefined".data "null".data t from by
                rw [py_replace]; rw [dif_neg hcond] <;> rfl]
            exact ⟨v, huv⟩
          have hpre2 := py_replace_tail_pre (s := c :: t) (c :: t).length le_rfl 0
            (by omega) (by simpa using hpre)
          simp only [List.drop] at hpre2
          exact hcond ⟨by rw [undefined_data_eq]; simp, hpre2⟩
        | a :: u' =>
          simp only [List.cons_append, List.cons.injEq] at huv
          exact ih t ht' ⟨u', v, huv.2⟩

/-- C6: FALSE as stated.  `str.replace('undefined', 'null')` rewrites every
occurrence of the substring, not only bare tokens: inside the longer word
`xundefinedy` the occurrence is still rewritten. -/
theorem C6_counterexample :
    py_replace "undefined".data "null".data "xundefinedy".data = "xnully".data ∧
    py_replace "undefined".data "null".data "xundefinedy".data ≠ "xundefinedy".data := by
  have h : py_replace "undefined".data "null".data "xundefinedy".data = "xnully".data := by
    simp [py_replace]
  exact ⟨h, by rw [h]; decide⟩

/-- A scan step at a non-matching position copies one character. -/
theorem sub_new_date_cons_none (c : Char) (rest : List Char)
    (h : match_new_date (c :: rest) = none) :
    sub_new_date (c :: rest) = c :: sub_new_date rest := by
  rw [show sub_new_date (c :: rest) =
        match match_new_date (c :: rest) with
        | some (y, _) =>
            '"' :: (y ++ '"' :: sub_new_date ((c :: rest).drop (12 + y.length)))
        | none => c :: sub_new_date rest from by rw [sub_new_date]]
  simp only [h]

/-- A context in which no match starts is copied verbatim by the scan. -/
theorem sub_new_date_skip (pre tail : List Char)
    (h : ∀ i, i < pre.length → match_new_date (pre.drop i ++ tail) = none) :
    sub_new_date (pre ++ tail) = pre ++ sub_new_date tail := by
  induction pre with
  | nil => rfl
  | cons c p ih =>
    have h0 : match_new_date (c :: (p ++ tail)) = none := by
      have := h 0 (by simp)
      simpa using this
    have hrec := ih (fun i hi => by
      have := h (i + 1) (by simp; omega)
      simpa using this)
    calc sub_new_date ((c :: p) ++ tail)
        = sub_new_date (c :: (p ++ tail)) := rfl
      _ = c :: sub_new_date (p ++ tail) := sub_new_date_cons_none c (p ++ tail) h0
      _ = c :: (p ++ sub_new_date tail) := by rw [hrec]
      _ = (c :: p) ++ sub_new_date tail := rfl

/-- At the head of a date-constructor call with quote-free argument, the
pattern matches and the remainder is exactly the text after the call. -/
theorem match_new_date_construct (x tail : List Char) (hx : '"' ∉ x) :
    match_new_date (nd_construct x ++ tail) = some (x, tail) := by
  have hpat : new_date_pat = "new Date(".data ++ ['"'] := rfl
  have hshape : nd_construct x ++ tail = new_date_pat ++ (x ++ '"' :: ')' :: tail) := by
    rw [hpat]; simp [nd_construct]
  have hpre : new_date_pat <+: (nd_construct x ++ tail) :=
    ⟨x ++ '"' :: ')' :: tail, hshape.symm⟩
  have hdrop : (nd_construct x ++ tail).drop new_date_pat.length =
      x ++ '"' :: ')' :: tail := by
    rw [hshape]; exact List.drop_left _ _
  have htw := takeWhile_append_all (fun c => decide (c ≠ '"')) x '"' (')' :: tail)
    (fun c hc => by simp; exact fun he => hx (he ▸ hc)) (by simp)
  rw [match_new_date, if_pos hpre, hdrop, htw.2, htw.1]
  rfl

/-- The scan rewrites a date-constructor call at its head and continues on
the text after the call. -/
theorem sub_new_date_construct (x tail : List Char) (hx : '"' ∉ x) :
    sub_new_date (nd_construct x ++ tail) = '"' :: (x ++ '"' :: sub_new_date tail) := by
  have hm := match_new_date_construct x tail hx
  have hlen : (nd_construct x).length = 12 + x.length := by
    simp [nd_construct]; omega
  have hdrop : (nd_construct x ++ tail).drop (12 + x.length) = tail := by
    rw [← hlen]; exact List.drop_left _ _
  cases hl : nd_construct x ++ tail with
  | nil =>
    have := congrArg List.length hl
    simp [nd_construct] at this
  | cons c rest =>
    rw [hl] at hm
    rw [show sub_new_date (c :: rest) =
          match match_new_date (c :: rest) with
          | some (y, _) =>
              '"' :: (y ++ '"' :: sub_new_date ((c :: rest).drop (12 + y.length)))
          | none => c :: sub_new_date rest from by rw [sub_new_date]]
    rw [hm]
    rw [← hl]
    show '"' :: (x ++ '"' :: sub_new_date ((nd_construct x ++ tail).drop (12 + x.length))) =
      '"' :: (x ++ '"' :: sub_new_date tail)
    rw [hdrop]

theorem ctx_clear_elim (c tail : List Char) (h : ctx_clear c tail = true) :
    ∀ i, i < c.length → match_new_date (c.drop i ++ tail) = none := by
  intro i hi
  simp only [ctx_clear] at h
  have := List.all_eq_true.mp h i (List.mem_range.mpr hi)
  exact Option.isNone_iff_eq_none.mp this

/-- For every well-formed decomposition into contexts and date-constructor
calls, the scan keeps every context verbatim, rewrites every call to the
quoted string, and processes the final tail recursively. -/
theorem sub_new_date_all (segs : List (List Char × List Char)) (last : List Char)
    (h : segs_ok segs last = true) :
    sub_new_date (assemble segs last) = assemble_out segs (sub_new_date last) := by
  induction segs with
  | nil => rfl
  | cons p rest ih =>
    simp only [segs_ok, Bool.and_eq_true] at h
    obtain ⟨⟨hx, hctx⟩, hrest⟩ := h
    show sub_new_date (p.1 ++ (nd_construct p.2 ++ assemble rest last)) =
      p.1 ++ '"' :: (p.2 ++ '"' :: assemble_out rest (sub_new_date last))
    rw [sub_new_date_skip p.1 _ (ctx_clear_elim _ _ hctx),
        sub_new_date_construct p.2 (assemble rest last) (of_decide_eq_true hx),
        ih hrest]

/-- C6 (amended): the repair rewrites every occurrence of the substring
`undefined` — wherever it appears, also inside longer words or string
values — to `null` (afterwards no occurrence of `undefined` remains); and
for every decomposition of the script text into context segments and
date-constructor calls `new Date("X")` (each `X` free of double quotes)
such that no match starts inside a context segment — the leftmost-match
discipline of `re.sub` — every one of the embedded calls is rewritten in
place to the quoted string `"X"`, the contexts are kept verbatim, and the
final tail is processed recursively. -/
theorem C6_theorem :
    (∀ s : List Char,
        ¬ ("undefined".data <:+: py_replace "undefined".data "null".data s)) ∧
    (∀ (segs : List (List Char × List Char)) (last : List Char),
        segs_ok segs last = true →
        sub_new_date (assemble segs last) = assemble_out segs (sub_new_date last)) :=
  ⟨fun s => py_replace_no_undefined s.length s le_rfl,
   fun segs last h => sub_new_date_all segs last h⟩

theorem C6_theorem_witness :
    segs_ok [("var d = ".data, "2024-10-08T01:00:00Z".data),
        (", e = ".data, "2025-01-01T00:00:00Z".data)] ";".data = true ∧
    sub_new_date (assemble [("var d = ".data, "2024-10-08T01:00:00Z".data),
        (", e = ".data, "2025-01-01T00:00:00Z".data)] ";".data) =
      assemble_out [("var d = ".data, "2024-10-08T01:00:00Z".data),
        (", e = ".data, "2025-01-01T00:00:00Z".data)] (sub_new_date ";".data) :=
  ⟨by decide,
   C6_theorem.2 [("var d = ".data, "2024-10-08T01:00:00Z".data),
        (", e = ".data, "2025-01-01T00:00:00Z".data)] ";".data (by decide)⟩

/-! ## Dedup invariant (C5) -/

theorem m3u_entries_urls (l : List ScheduleRow) :
    ∀ (gm : List (String × String)) (seen : List String) (es : List M3uEntry),
      m3u_entries l gm seen = .ok es →
      es.map M3uEntry.clean_url =
        emitted_urls seen (l.map (fun e => clean_stream_url (raw_stream_url e))) := by
  induction l with
  | nil =>
    intro gm seen es h
    simp only [m3u_entries] at h
    cases h
    rfl
  | cons elem rest ih =>
    intro gm seen es h
    simp only [m3u_entries] at h
    cases hlogo : logo_url elem with
    | error e => simp [hlogo] at h
    | ok logo =>
      simp only [hlogo] at h
      by_cases hc : clean_stream_url (raw_stream_url elem) ≠ "" ∧
          clean_stream_url (raw_stream_url elem) ∉ seen
      · rw [if_pos hc] at h
        cases hrec : m3u_entries rest gm (clean_stream_url (raw_stream_url elem) :: seen) with
        | error e => simp [hrec] at h
        | ok es' =>
          simp only [hrec] at h
          cases h
          have hcond : ¬ (clean_stream_url (raw_stream_url elem) = "" ∨
              clean_stream_url (raw_stream_url elem) ∈ seen) := by
            push_neg
            exact hc
          simp only [List.map_cons, emitted_urls, if_neg hcond]
          exact congrArg _ (ih gm _ es' hrec)
      · rw [if_neg hc] at h
        have hcond : clean_stream_url (raw_stream_url elem) = "" ∨
            clean_stream_url (raw_stream_url elem) ∈ seen := by
          by_contra hcon
          push_neg at hcon
          exact hc ⟨hcon.1, hcon.2⟩
        simp only [List.map_cons, emitted_urls, if_pos hcond]
        exact ih gm seen es h

theorem first_dedup_nil : first_dedup [] = [] := by
  rw [first_dedup.eq_def]

theorem first_dedup_cons (u : String) (us : List String) :
    first_dedup (u :: us) = u :: first_dedup (us.filter (fun v => v ≠ u)) := by
  rw [first_dedup.eq_def]

theorem emitted_urls_eq_first_dedup (us : List String) :
    ∀ seen : List String,
      emitted_urls seen us =
        first_dedup (us.filter (fun u => decide (u ≠ "" ∧ u ∉ seen))) := by
  induction us with
  | nil => intro seen; simp [emitted_urls, first_dedup_nil]
  | cons u us ih =>
    intro seen
    by_cases hc : u = "" ∨ u ∈ seen
    · rw [show emitted_urls seen (u :: us) = emitted_urls seen us from by
            simp [emitted_urls, hc]]
      rw [show (u :: us).filter (fun v => decide (v ≠ "" ∧ v ∉ seen)) =
            us.filter (fun v => decide (v ≠ "" ∧ v ∉ seen)) from by
            rcases hc with h | h <;> simp [List.filter_cons, h]]
      exact ih seen
    · push_neg at hc
      have hneg : ¬ (u = "" ∨ u ∈ seen) := not_or.mpr ⟨hc.1, hc.2⟩
      rw [show emitted_urls seen (u :: us) = u :: emitted_urls (u :: seen) us from by
            simp [emitted_urls, hneg]]
      rw [show (u :: us).filter (fun v => decide (v ≠ "" ∧ v ∉ seen)) =
            u :: us.filter (fun v => decide (v ≠ "" ∧ v ∉ seen)) from by
            simp [List.filter_cons, hc.1, hc.2]]
      rw [first_dedup_cons, ih (u :: seen), List.filter_filter]
      congr 1
      congr 1
      apply List.filter_congr
      intro v _
      by_cases hv1 : v = ""
      · simp [hv1]
      · by_cases hv2 : v ∈ seen <;> by_cases hv3 : v = u <;>
          simp [hv1, hv2, hv3, List.mem_cons]

theorem mem_first_dedup (l : List String) : ∀ x ∈ first_dedup l, x ∈ l := by
  induction l using first_dedup.induct with
  | case1 => simp [first_dedup]
  | case2 u us ih =>
    intro x hx
    rw [first_dedup] at hx
    rcases List.mem_cons.mp hx with h | h
    · simp [h]
    · exact List.mem_cons_of_mem u (List.mem_filter.mp (ih x h)).1

theorem nodup_first_dedup (l : List String) : (first_dedup l).Nodup := by
  induction l using first_dedup.induct with
  | case1 => simp [first_dedup]
  | case2 u us ih =>
    rw [first_dedup, List.nodup_cons]
    refine ⟨fun hmem => ?_, ih⟩
    have h := mem_first_dedup _ u hmem
    simp at h

/-- C5: when the playlist composition succeeds, the emitted entries carry
exactly the distinct non-empty cleaned stream URLs of the sorted rows, each
at its first post-sort occurrence, and no two entries share a cleaned URL. -/
theorem C5_theorem (epg_data : List ScheduleRow) (gm : List (String × String))
    (entries : List M3uEntry)
    (h : m3u_entries (sorted_epg_data epg_data) gm [] = .ok entries) :
    entries.map M3uEntry.clean_url =
      first_dedup (((sorted_epg_data epg_data).map
        (fun e => clean_stream_url (raw_stream_url e))).filter (fun u => u ≠ "")) ∧
    (entries.map M3uEntry.clean_url).Nodup := by
  have h1 := m3u_entries_urls (sorted_epg_data epg_data) gm [] entries h
  have h2 := emitted_urls_eq_first_dedup
    ((sorted_epg_data epg_data).map (fun e => clean_stream_url (raw_stream_url e))) []
  have h3 : ((sorted_epg_data epg_data).map
        (fun e => clean_stream_url (raw_stream_url e))).filter
          (fun u => decide (u ≠ "" ∧ u ∉ ([] : List String))) =
      ((sorted_epg_data epg_data).map
        (fun e => clean_stream_url (raw_stream_url e))).filter (fun u => u ≠ "") := by
    apply List.filter_congr
    intro v _
    simp
  rw [h3] at h2
  rw [h1, h2]
  exact ⟨rfl, nodup_first_dedup _⟩

set_option maxRecDepth 8000 in
theorem C5_theorem_witness :
    (([⟨"2", none, "News", "Alpha", "http://h/b"⟩,
       ⟨"1", some "L1", "Other", "beta", "http://h/a"⟩] : List M3uEntry).map
        M3uEntry.clean_url =
      first_dedup (((sorted_epg_data
          [⟨some "beta", "1", ["http%3A//h/a?tok=1"], some ["L1"], []⟩,
           ⟨some "Alpha", "2", ["http://h/b?x=2#f"], none, []⟩,
           ⟨some "alpha", "3", ["http://h/b?y=9"], some ["L3"], []⟩,
           ⟨none, "4", [], some ["L4"], []⟩]).map
        (fun e => clean_stream_url (raw_stream_url e))).filter (fun u => u ≠ ""))) ∧
    (([⟨"2", none, "News", "Alpha", "http://h/b"⟩,
       ⟨"1", some "L1", "Other", "beta", "http://h/a"⟩] : List M3uEntry).map
        M3uEntry.clean_url).Nodup :=
  C5_theorem
    [⟨some "beta", "1", ["http%3A//h/a?tok=1"], some ["L1"], []⟩,
     ⟨some "Alpha", "2", ["http://h/b?x=2#f"], none, []⟩,
     ⟨some "alpha", "3", ["http://h/b?y=9"], some ["L3"], []⟩,
     ⟨none, "4", [], some ["L4"], []⟩]
    [("2", "News")]
    [⟨"2", none, "News", "Alpha", "http://h/b"⟩,
     ⟨"1", some "L1", "Other", "beta", "http://h/a"⟩]
    (by rfl)

end Tubi
